import Mathlib

/-!
mini-htop: the sampling and derivation layer of `minihtop.cpp`.

A shallow embedding of the functions of `src/minihtop.cpp` that turn raw kernel
counters into percentages, and of the ranking of processes.

Modelling conventions.

* `long long` / `long` values are `Int`.  The counters are tick counts, far from
  the ends of the 64-bit range, so no sum or difference of the source overflows.
* A `float` / `double` value is the rational number it holds.  Every conversion
  to `float` or `double` and every arithmetic operation on them rounds to the
  nearest value with 24 (`f32`) or 53 (`f64`) significant bits, ties to the even
  one, each operation on its own (the evaluation of x86-64).  The exponent range
  is not modelled: the values of this program stay far inside it.
* A result of type `Option` is `none` where the C++ standard leaves the behaviour
  of the source undefined (a read past the end of a vector, a division by zero)
  or where the call does not return normally.
* Files under `/proc` are inputs: a function that reads one takes what was read
  as an argument.
-/

namespace MiniHtop

/-! ## Data model -/

/-- Mirror of `struct CPUData`: the eight tick counters of one `cpu` line. -/
structure CPUData where
  user : Int
  nice : Int
  sys : Int
  idle : Int
  iowait : Int
  irq : Int
  softirq : Int
  steal : Int
  deriving DecidableEq, Repr

/-- Mirror of `struct ProcInfo`.  Every `Char` of `name` is one `char` of the
`std::string`. -/
structure ProcInfo where
  pid : Int
  name : List Char
  cpu : ℚ
  mem : Int
  deriving DecidableEq, Repr

/-! ## CPU usage -/

/-! ### Binary floating point -/

/-- Rounding of a rational to the nearest integer, a tie going to the even one. -/
def roundHalfEven (a : ℚ) : Int :=
  if a - (⌊a⌋ : ℚ) < 1 / 2 then ⌊a⌋
  else if 1 / 2 < a - (⌊a⌋ : ℚ) then ⌊a⌋ + 1
  else if ⌊a⌋ % 2 = 0 then ⌊a⌋ else ⌊a⌋ + 1

/-- Number of halvings that bring `n` below `2`, with `fuel` steps at most. -/
def log2Fuel : Nat → Nat → Nat
  | 0, _ => 0
  | fuel + 1, n => if 2 ≤ n then log2Fuel fuel (n / 2) + 1 else 0

/-- The binary logarithm of `n`, rounded down (`0` for `n = 0`). -/
def ilog2 (n : Nat) : Nat := log2Fuel n n

/-- The binary exponent of a positive rational `x`: the `e` with
`2^e <= x < 2^(e+1)`. -/
def binExp (x : ℚ) : Int :=
  if (2 : ℚ) ^ ((ilog2 x.num.toNat : Int) - (ilog2 x.den : Int)) ≤ x then
    (ilog2 x.num.toNat : Int) - (ilog2 x.den : Int)
  else (ilog2 x.num.toNat : Int) - (ilog2 x.den : Int) - 1

/-- The unit in the last place of a positive `x` at `prec` significant bits. -/
def ulpOf (prec : Nat) (x : ℚ) : ℚ :=
  2 ^ (binExp x - ((prec : Int) - 1))

/-- Rounding of a positive `x` to `prec` significant bits. -/
def roundMag (prec : Nat) (x : ℚ) : ℚ :=
  (roundHalfEven (x / ulpOf prec x) : ℚ) * ulpOf prec x

/-- Rounding to the nearest binary floating-point value with `prec` significant
bits, ties to even. -/
def roundBin (prec : Nat) (q : ℚ) : ℚ :=
  if q = 0 then 0 else if 0 < q then roundMag prec q else -roundMag prec (-q)

/-- Rounding to `float` (binary32). -/
def f32 (q : ℚ) : ℚ := roundBin 24 q

/-- Rounding to `double` (binary64). -/
def f64 (q : ℚ) : ℚ := roundBin 53 q

/-- Division `a / b` of two `float` values.  Undefined for a zero divisor. -/
def fdiv32 (a b : ℚ) : Option ℚ :=
  if b = 0 then none else some (f32 (a / b))

/-- Division `a / b` of two `double` values.  Undefined for a zero divisor. -/
def fdiv64 (a b : ℚ) : Option ℚ :=
  if b = 0 then none else some (f64 (a / b))

/-- Body of the `for` loop of `getCPUUsage` (lines 49-58) for one index:
`cur` is `current[i]`, `prev` is `last[i]`; the value is `percent`.  Line 58 is
`(float)(user + nice + sys) * 100.0f / total`: the sum is converted to `float`,
multiplied by `100.0f`, and divided by `total` converted to `float`. -/
def entryPercent (cur prev : CPUData) : Option ℚ :=
  let user := cur.user - prev.user
  let nice := cur.nice - prev.nice
  let sys := cur.sys - prev.sys
  let idle := cur.idle - prev.idle
  let total := user + nice + sys + idle +
               (cur.iowait - prev.iowait) +
               (cur.irq - prev.irq) +
               (cur.softirq - prev.softirq) +
               (cur.steal - prev.steal)
  if total > 0 then
    fdiv32 (f32 (f32 ((user + nice + sys : Int) : ℚ) * 100)) (f32 (total : ℚ))
  else some 0

/-- The `for` loop of `getCPUUsage` (lines 48-60).  The index `i` runs over
`current`; `current[i]` and `last[i]` are read in step, so the two vectors are
traversed together.  When `last` is exhausted before `current`, `last[i]` is a
read past the end of the vector. -/
def usageLoop : List CPUData → List CPUData → Option (List ℚ)
  | [], _ => some []
  | _ :: _, [] => none
  | c :: cs, l :: ls =>
    match entryPercent c l, usageLoop cs ls with
    | some p, some rest => some (p :: rest)
    | _, _ => none

/-- Model of `getCPUUsage` (lines 43-64).  The static vector `last` is the state:
it is passed in, and its new value is the second component of the result.  The
snapshot `current` is what `readCPUStats()` returned in this call. -/
def getCPUUsage (last current : List CPUData) : Option (List ℚ × List CPUData) :=
  if !last.isEmpty then
    (usageLoop current last).map fun usage => (usage, current)
  else
    some (List.replicate current.length 0, current)

/-- The stored baseline after a run of calls, one snapshot per call, starting
from the baseline `last`. -/
def runCalls (last : List CPUData) : List (List CPUData) → Option (List CPUData)
  | [] => some last
  | s :: rest => (getCPUUsage last s).bind fun r => runCalls r.2 rest

/-- The usages returned by the second of two calls made on a fresh program:
the first call reads `prev`, the second reads `cur`. -/
def secondCall (prev cur : List CPUData) : Option (List ℚ) :=
  (getCPUUsage [] prev).bind fun r1 => (getCPUUsage r1.2 cur).map Prod.fst

/-! ### The quantities the specification names -/

/-- The specification's `busy = Δuser + Δnice + Δsystem`, current minus previous. -/
def busyDelta (cur prev : CPUData) : Int :=
  (cur.user - prev.user) + (cur.nice - prev.nice) + (cur.sys - prev.sys)

/-- The specification's `total = busy + Δidle + Δiowait + Δirq + Δsoftirq + Δsteal`. -/
def totalDelta (cur prev : CPUData) : Int :=
  busyDelta cur prev + (cur.idle - prev.idle) + (cur.iowait - prev.iowait) +
    (cur.irq - prev.irq) + (cur.softirq - prev.softirq) + (cur.steal - prev.steal)

/-- The value line 58 gives to `percent` in terms of the two deltas: the
binary32 evaluation of `busy * 100 / total`, or `0` when `total <= 0`. -/
def usageValue (cur prev : CPUData) : ℚ :=
  if 0 < totalDelta cur prev then
    f32 (f32 (f32 (busyDelta cur prev : ℚ) * 100) / f32 (totalDelta cur prev : ℚ))
  else 0

/-- A call reads only existing entries of the baseline: either there is no
baseline yet, or the snapshot has no more entries than the baseline. -/
def ReadsInBounds (last current : List CPUData) : Prop :=
  last = [] ∨ current.length ≤ last.length

/-- Snapshot entry with only `user` and `idle` set, the other counters zero. -/
def cpuOf (user idle : Int) : CPUData :=
  { user := user, nice := 0, sys := 0, idle := idle, iowait := 0, irq := 0, softirq := 0,
    steal := 0 }

/-! ## Processes -/

/-- The values one pass of the `while` loop of `getTopProcesses` has in its local
variables once `/proc/[pid]/stat` and `/proc/[pid]/status` have been read
(lines 120-146): `pid`, `comm`, `utime`, `stime`, `starttime` from `stat`, and
`mem_kb` from the `VmRSS:` line of `status`. -/
structure StatRecord where
  pid : Int
  comm : List Char
  utime : Int
  stime : Int
  starttime : Int
  mem_kb : Int
  deriving DecidableEq, Repr

/-- One entry returned by `readdir`: either the loop leaves it with `continue`
(the name does not start with a digit, or its `stat` file cannot be opened), or
its files are read into a `StatRecord`. -/
inductive DirEntry where
  | skipped
  | proc (s : StatRecord)
  deriving DecidableEq, Repr

/-- Lines 148-151: `if (comm.size() > 2 && comm[0] == '(') comm = comm.substr(1,
comm.size() - 2);`. -/
def stripComm (comm : List Char) : List Char :=
  if comm.length > 2 ∧ comm.head? = some '(' then (comm.drop 1).take (comm.length - 2)
  else comm

/-- Lines 133-135: `total_time`, `seconds` and `cpu_usage` of one process, for the
value `uptime` of the `double` read from `/proc/uptime` and the tick rate
`clkTck`.  The integers are converted to `double`, every operation is a `double`
operation, and the result is stored in a `float`. -/
def cpuUsageOf (uptime : ℚ) (clkTck : Int) (s : StatRecord) : Option ℚ :=
  let total_time : ℚ := f64 ((s.utime + s.stime : Int) : ℚ)
  (fdiv64 (f64 (s.starttime : ℚ)) (f64 (clkTck : ℚ))).bind fun q =>
    let seconds := f64 (uptime - q)
    if seconds > 0 then
      (fdiv64 total_time (f64 (clkTck : ℚ))).bind fun t =>
        (fdiv64 t seconds).map fun r => f32 (f64 (100 * r))
    else some 0

/-- Lines 133-153: the `ProcInfo` built from what was read for one process. -/
def procInfoOf (uptime : ℚ) (clkTck : Int) (s : StatRecord) : Option ProcInfo :=
  (cpuUsageOf uptime clkTck s).map fun cpu_usage =>
    { pid := s.pid, name := stripComm s.comm, cpu := cpu_usage, mem := s.mem_kb }

/-- The `while` loop over the directory (lines 110-155): the vector `procs` in
the order of `push_back`. -/
def collectProcs (uptime : ℚ) (clkTck : Int) : List DirEntry → Option (List ProcInfo)
  | [] => some []
  | DirEntry.skipped :: es => collectProcs uptime clkTck es
  | DirEntry.proc s :: es =>
    match procInfoOf uptime clkTck s, collectProcs uptime clkTck es with
    | some p, some ps => some (p :: ps)
    | _, _ => none

/-- What `std::sort` with the comparator `a.cpu > b.cpu` guarantees of its result:
it is a rearrangement of the input in which no element compares before an
earlier one.  The order of elements with equal `cpu` is not part of the
guarantee. -/
def StdSortContract (sort : List ProcInfo → List ProcInfo) : Prop :=
  ∀ l, (sort l).Perm l ∧ (sort l).Pairwise fun a b => ¬ (b.cpu > a.cpu)

/-- Line 163: `if ((int)procs.size() > topN) procs.resize(topN);`.  A negative
`topN` converts to a size no vector can have, and `resize` throws. -/
def truncateTop (procs : List ProcInfo) (topN : Int) : Option (List ProcInfo) :=
  if (procs.length : Int) > topN then
    if topN < 0 then none else some (procs.take topN.toNat)
  else some procs

/-- Lines 158-164: the selection of the top `topN` records, `sort` standing for
the call of `std::sort`. -/
def selectTop (sort : List ProcInfo → List ProcInfo) (procs : List ProcInfo) (topN : Int) :
    Option (List ProcInfo) :=
  truncateTop (sort procs) topN

/-- Model of `getTopProcesses` (lines 94-165).  `dir` is `none` when `opendir`
fails, otherwise the entries `readdir` returns, in order. -/
def getTopProcesses (sort : List ProcInfo → List ProcInfo) (uptime : ℚ) (clkTck : Int)
    (dir : Option (List DirEntry)) (topN : Int) : Option (List ProcInfo) :=
  match dir with
  | none => some []
  | some entries =>
    (collectProcs uptime clkTck entries).bind fun procs => selectTop sort procs topN

/-! ### Reference sorts -/

/-- The order `std::sort` is asked for: `a` may stand before `b`. -/
def cpuGe (a b : ProcInfo) : Prop := a.cpu ≥ b.cpu

instance : DecidableRel cpuGe := fun a b => inferInstanceAs (Decidable (a.cpu ≥ b.cpu))

instance : IsTotal ProcInfo cpuGe := ⟨fun a b => le_total b.cpu a.cpu⟩

instance : IsTrans ProcInfo cpuGe := ⟨fun _ _ _ h1 h2 => ge_trans h1 h2⟩

/-- The comparator passed to `std::sort`: `a.cpu > b.cpu`. -/
def cpuGt (a b : ProcInfo) : Prop := a.cpu > b.cpu

instance : IsAntisymm ProcInfo cpuGt := ⟨fun _ _ h1 h2 => absurd h1 (not_lt_of_gt h2)⟩

/-- The specification's `processAgeSeconds = uptime - startTime / tickRate`. -/
def processAgeSeconds (uptime : ℚ) (clkTck : Int) (s : StatRecord) : ℚ :=
  uptime - (s.starttime : ℚ) / (clkTck : ℚ)

/-- The value of `seconds` at line 134: the `double` difference of `uptime` and
the `double` quotient `starttime / clkTck`. -/
def secondsOf (uptime : ℚ) (clkTck : Int) (s : StatRecord) : ℚ :=
  f64 (uptime - f64 (f64 (s.starttime : ℚ) / f64 (clkTck : ℚ)))

/-- The value of `cpu_usage` at line 135 in terms of `seconds`: `0` when
`seconds <= 0`, otherwise `100.0 * ((total_time / clkTck) / seconds)` evaluated
in `double` and stored in a `float`. -/
def cpuValue (uptime : ℚ) (clkTck : Int) (s : StatRecord) : ℚ :=
  if secondsOf uptime clkTck s ≤ 0 then 0
  else
    f32 (f64 (100 * f64 (f64 (f64 ((s.utime + s.stime : Int) : ℚ) / f64 (clkTck : ℚ))
      / secondsOf uptime clkTck s)))

/-- The specification's sort: descending by `cpu`, stable (records of equal `cpu`
stay in discovery order). -/
def stableSortDesc (l : List ProcInfo) : List ProcInfo :=
  l.insertionSort cpuGe

/-- A sort that meets `StdSortContract` and puts records of equal `cpu` in the
reverse of discovery order. -/
def reversingSortDesc (l : List ProcInfo) : List ProcInfo :=
  l.reverse.insertionSort cpuGe

/-! ### The `std::sort` of libstdc++

`std::sort` as `bits/stl_algo.h` of libstdc++ implements it: an introsort that
partitions ranges of more than 16 elements around a median of three, followed by
an insertion sort.  The vector is a list, iterators are indices.  The heap sort
that takes over when the depth limit reaches `0` is not modelled: the result is
`none` there. -/

instance : Inhabited ProcInfo := ⟨{ pid := 0, name := [], cpu := 0, mem := 0 }⟩

/-- The comparator of line 159-161 as a function to `bool`. -/
def cpuComp (a b : ProcInfo) : Bool := decide (a.cpu > b.cpu)

/-- The call `std::iter_swap(a + i, a + j)`. -/
def swapAt (a : List ProcInfo) (i j : Nat) : List ProcInfo :=
  (a.set i (a.getD j default)).set j (a.getD i default)

/-- The function `__unguarded_linear_insert`: `val` is moved down from index
`last` past every element it compares before. -/
def linearInsert (val : ProcInfo) : List ProcInfo → Nat → List ProcInfo
  | a, 0 => a.set 0 val
  | a, last + 1 =>
    if cpuComp val (a.getD last default) then
      linearInsert val (a.set (last + 1) (a.getD last default)) last
    else a.set (last + 1) val

/-- The loop of `__insertion_sort` on a range that starts at index `0`, for the
`count` indices from `i` on: an element that compares before the first one is
moved to the front, any other is inserted by `linearInsert`. -/
def insertionSortFrom : List ProcInfo → Nat → Nat → List ProcInfo
  | a, _, 0 => a
  | a, i, count + 1 =>
    insertionSortFrom
      (if cpuComp (a.getD i default) (a.getD 0 default) then
        a.getD i default :: (a.take i ++ a.drop (i + 1))
       else linearInsert (a.getD i default) a i)
      (i + 1) count

/-- The loop of `__unguarded_insertion_sort` for the `count` indices from `i`
on. -/
def unguardedInsertionSort : List ProcInfo → Nat → Nat → List ProcInfo
  | a, _, 0 => a
  | a, i, count + 1 =>
    unguardedInsertionSort (linearInsert (a.getD i default) a i) (i + 1) count

/-- The function `__final_insertion_sort` on the whole vector, with
`_S_threshold = 16`. -/
def finalInsertionSort (a : List ProcInfo) : List ProcInfo :=
  if a.length > 16 then
    unguardedInsertionSort (insertionSortFrom a 1 15) 16 (a.length - 16)
  else insertionSortFrom a 1 (a.length - 1)

/-- The function `__move_median_to_first(result, a, b, c)`. -/
def moveMedianToFirst (arr : List ProcInfo) (result a b c : Nat) : List ProcInfo :=
  if cpuComp (arr.getD a default) (arr.getD b default) then
    if cpuComp (arr.getD b default) (arr.getD c default) then swapAt arr result b
    else if cpuComp (arr.getD a default) (arr.getD c default) then swapAt arr result c
    else swapAt arr result a
  else if cpuComp (arr.getD a default) (arr.getD c default) then swapAt arr result a
  else if cpuComp (arr.getD b default) (arr.getD c default) then swapAt arr result c
  else swapAt arr result b

/-- The loop `while (comp(first, pivot)) ++first;` of `__unguarded_partition`. -/
def scanUp (arr : List ProcInfo) (pivot : Nat) : Nat → Nat → Nat
  | 0, first => first
  | fuel + 1, first =>
    if cpuComp (arr.getD first default) (arr.getD pivot default) then
      scanUp arr pivot fuel (first + 1)
    else first

/-- The loop `while (comp(pivot, last)) --last;` of `__unguarded_partition`. -/
def scanDown (arr : List ProcInfo) (pivot : Nat) : Nat → Nat → Nat
  | 0, last => last
  | fuel + 1, last =>
    if cpuComp (arr.getD pivot default) (arr.getD last default) then
      scanDown arr pivot fuel (last - 1)
    else last

/-- The function `__unguarded_partition(first, last, pivot)`: the vector after
the swaps, and the index returned. -/
def unguardedPartition : Nat → List ProcInfo → Nat → Nat → Nat → List ProcInfo × Nat
  | 0, arr, first, _, _ => (arr, first)
  | fuel + 1, arr, first, last, pivot =>
    if scanUp arr pivot arr.length first < scanDown arr pivot arr.length (last - 1) then
      unguardedPartition fuel
        (swapAt arr (scanUp arr pivot arr.length first)
          (scanDown arr pivot arr.length (last - 1)))
        (scanUp arr pivot arr.length first + 1)
        (scanDown arr pivot arr.length (last - 1)) pivot
    else (arr, scanUp arr pivot arr.length first)

/-- The function `__unguarded_partition_pivot(first, last)`. -/
def partitionPivot (arr : List ProcInfo) (first last : Nat) : List ProcInfo × Nat :=
  unguardedPartition arr.length
    (moveMedianToFirst arr first (first + 1) (first + (last - first) / 2) (last - 1))
    (first + 1) last first

/-- The function `__introsort_loop(first, last, depth_limit)`. -/
def introsortLoop : Nat → List ProcInfo → Nat → Nat → Option (List ProcInfo)
  | depth, arr, first, last =>
    if last - first > 16 then
      match depth with
      | 0 => none
      | d + 1 =>
        match introsortLoop d (partitionPivot arr first last).1
            (partitionPivot arr first last).2 last with
        | none => none
        | some arr2 => introsortLoop d arr2 first (partitionPivot arr first last).2
    else some arr

/-- The call `std::sort(procs.begin(), procs.end(), comp)` of lines 159-161 with
libstdc++. -/
def gnuSort (arr : List ProcInfo) : Option (List ProcInfo) :=
  if arr.isEmpty then some arr
  else (introsortLoop (2 * ilog2 arr.length) arr 0 arr.length).map finalInsertionSort

/-- Model of `getTopProcesses` (lines 94-165) linked with libstdc++: as
`getTopProcesses`, with `gnuSort` for the call of `std::sort`. -/
def getTopProcessesGnu (uptime : ℚ) (clkTck : Int) (dir : Option (List DirEntry))
    (topN : Int) : Option (List ProcInfo) :=
  match dir with
  | none => some []
  | some entries =>
    (collectProcs uptime clkTck entries).bind fun procs =>
      (gnuSort procs).bind fun sorted => truncateTop sorted topN

/-- The record of a process with the given pid and cpu, named `p`, no memory. -/
def procOf (pid : Int) (cpu : ℚ) : ProcInfo :=
  { pid := pid, name := ['p'], cpu := cpu, mem := 0 }

/-! ## Memory and disk -/

/-- The values of `totalMem`, `freeMem`, `buffers` and `cached` when the `while`
loop of `getMemoryUsage` over `/proc/meminfo` ends (lines 71-78), in KB. -/
structure MemInfo where
  totalMem : Int
  freeMem : Int
  buffers : Int
  cached : Int
  deriving DecidableEq, Repr

/-- Model of `getMemoryUsage` (lines 67-81).  `file` is `none` when
`/proc/meminfo` cannot be opened.  Line 80 is `(float)usedMem / totalMem *
100.0f`: a `float` quotient, then a `float` product. -/
def getMemoryUsage (file : Option MemInfo) : Option ℚ :=
  match file with
  | none => some 0
  | some m =>
    let usedMem := m.totalMem - (m.freeMem + m.buffers + m.cached)
    if m.totalMem > 0 then
      (fdiv32 (f32 (usedMem : ℚ)) (f32 (m.totalMem : ℚ))).map fun q => f32 (q * 100)
    else some 0

/-- The fields of `struct statvfs` that `getDiskUsage` reads, each an unsigned
64-bit value. -/
structure StatVfs where
  f_blocks : Nat
  f_bfree : Nat
  f_frsize : Nat
  deriving DecidableEq, Repr

/-- Model of `getDiskUsage` (lines 84-91).  `stat` is `none` when `statvfs` fails.
The two products and the difference are unsigned 64-bit operations, taken
modulo `2^64`.  Line 90 is `(float)used / total * 100.0f`: a `float` quotient,
then a `float` product. -/
def getDiskUsage (stat : Option StatVfs) : Option ℚ :=
  match stat with
  | none => some 0
  | some st =>
    let total : Nat := (st.f_blocks * st.f_frsize) % 2 ^ 64
    let free : Nat := (st.f_bfree * st.f_frsize) % 2 ^ 64
    let used : Nat := (total + 2 ^ 64 - free) % 2 ^ 64
    if total > 0 then
      (fdiv32 (f32 (used : ℚ)) (f32 (total : ℚ))).map fun q => f32 (q * 100)
    else some 0

/-! ## Bars -/

/-- What one `mvprintw` call of `drawBar` writes: the label, one gauge cell
(with the colour pair that is switched on, if any), or the formatted percentage. -/
inductive Drawn where
  | label (s : List Char)
  | cell (c : Char) (color : Option Nat)
  | percent (p : ℚ)
  deriving DecidableEq, Repr

/-- One `mvprintw(y, x, ...)` call. -/
structure DrawCmd where
  y : Int
  x : Int
  what : Drawn
  deriving DecidableEq, Repr

/-- Conversion of a floating-point value to `int`: the fraction is discarded
(rounding toward zero). -/
def truncToInt (q : ℚ) : Int :=
  Int.tdiv q.num (q.den : Int)

/-- Line 172: `int color = (percent < 50) ? 1 : (percent < 80) ? 2 : 3;`. -/
def barColor (percent : ℚ) : Nat :=
  if percent < 50 then 1 else if percent < 80 then 2 else 3

/-- Line 169: `int filled = (percent / 100.0) * width;`.  `percent` is a `float`
and converts to `double` as it is; the quotient and the product with `width`
converted to `double` are `double` operations, and the product is truncated. -/
def barFilled (percent : ℚ) (width : Int) : Int :=
  truncToInt (f64 (f64 (percent / 100) * f64 (width : ℚ)))

/-- The two `for` loops of `drawBar` (lines 174-182): the `#` cells for
`i = 0 .. filled - 1`, drawn in the colour pair, then the `-` cells for
`i = filled .. width - 1`, each at column `x + strlen(label) + 1 + i`. -/
def gaugeCells (y x : Int) (percent : ℚ) (label : List Char) (width : Int) : List DrawCmd :=
  let filled := barFilled percent width
  let color := barColor percent
  (List.range filled.toNat).map
      (fun i => { y := y, x := x + (label.length : Int) + 1 + (i : Int),
                  what := Drawn.cell '#' (some color) }) ++
    (List.range (width - filled).toNat).map
      (fun k => { y := y, x := x + (label.length : Int) + 1 + (filled + (k : Int)),
                  what := Drawn.cell '-' none })

/-- Model of `drawBar` (lines 168-184): the `mvprintw` calls in the order they
are made. -/
def drawBar (y x : Int) (percent : ℚ) (label : List Char) (width : Int) : List DrawCmd :=
  [{ y := y, x := x, what := Drawn.label label }] ++
    gaugeCells y x percent label width ++
    [{ y := y, x := x + (label.length : Int) + 1 + width + 2, what := Drawn.percent percent }]

/-! ## Reading `/proc` -/

/-- The C `isspace` on the characters of a `/proc` file: space, and tab to
carriage return. -/
def isSpace (c : Char) : Bool :=
  c.toNat == 32 || (9 ≤ c.toNat && c.toNat ≤ 13)

/-- Skipping of leading white space, as every conversion below does first. -/
def skipSpace (buf : List Char) : List Char :=
  buf.dropWhile isSpace

/-- The number written by a run of decimal digits. -/
def digitsToNat (ds : List Char) : Nat :=
  ds.foldl (fun n c => 10 * n + (c.toNat - 48)) 0

/-- Conversion of a decimal integer at the head of `buf`, as `%lld` and
`operator>>(long&)` do once white space is skipped: an optional sign, then the
longest run of digits.  The value is `none` when there is no digit. -/
def scanInt (buf : List Char) : Option (Int × List Char) :=
  let signed : Bool × List Char :=
    match buf with
    | '-' :: r => (true, r)
    | '+' :: r => (false, r)
    | r => (false, r)
  let ds := signed.2.takeWhile Char.isDigit
  if ds.isEmpty then none
  else
    some (if signed.1 then -((digitsToNat ds : Nat) : Int) else ((digitsToNat ds : Nat) : Int),
      signed.2.dropWhile Char.isDigit)

/-! ### `readCPUStats` -/

/-- The conversions ` %lld` of the `sscanf` format, at most `n` of them: the
values converted until the first conversion that fails. -/
def scanLongs : Nat → List Char → List Int
  | 0, _ => []
  | n + 1, buf =>
    match scanInt (skipSpace buf) with
    | none => []
    | some (v, rest) => v :: scanLongs n rest

/-- Lines 33-36: `CPUData cpu {}` filled by `sscanf(line, "cpu%*s %lld %lld %lld
%lld %lld %lld %lld %lld", ...)` on a line that starts with `cpu`.  The literal
`cpu` is matched, `%*s` skips white space and discards the next run of
non-space characters, then up to eight integers are converted; a field whose
conversion is not reached keeps its initial `0`. -/
def scanCpuLine (line : List Char) : CPUData :=
  let afterCpu := line.drop 3
  let word := skipSpace afterCpu
  let vs : List Int :=
    if word.isEmpty then [] else scanLongs 8 (word.dropWhile fun c => !isSpace c)
  { user := vs.getD 0 0, nice := vs.getD 1 0, sys := vs.getD 2 0, idle := vs.getD 3 0,
    iowait := vs.getD 4 0, irq := vs.getD 5 0, softirq := vs.getD 6 0, steal := vs.getD 7 0 }

/-- Line 32: `line.rfind("cpu", 0) == 0`, the line starts with `cpu`. -/
def startsWithCpu (line : List Char) : Bool :=
  match line with
  | 'c' :: 'p' :: 'u' :: _ => true
  | _ => false

/-- Model of `readCPUStats` (lines 27-41) on the lines `getline` returns from
`/proc/stat` (none when the file cannot be opened). -/
def readCPUStats : List (List Char) → List CPUData
  | [] => []
  | line :: rest =>
    if startsWithCpu line then scanCpuLine line :: readCPUStats rest else []

/-! ### The `stat` record of a process -/

/-- An `ifstream`: the characters not yet read, and whether the stream is still
good (`ok = false` once `failbit` is set; then every extraction fails). -/
structure IStream where
  buf : List Char
  ok : Bool
  deriving DecidableEq, Repr

/-- Extraction `stream >> word` into a `std::string` holding `old`: white space
is skipped and the next run of non-space characters is taken; at the end of the
input the stream fails and the string keeps `old`. -/
def getWord (s : IStream) (old : List Char) : IStream × List Char :=
  if !s.ok then (s, old)
  else
    let b := skipSpace s.buf
    if b.isEmpty then ({ buf := [], ok := false }, old)
    else ({ buf := b.dropWhile fun c => !isSpace c, ok := true }, b.takeWhile fun c => !isSpace c)

/-- Extraction `stream >> state` into a `char`: white space is skipped and one
character is taken.  The character read is never used by `getTopProcesses`, so
only the stream is returned. -/
def getChar (s : IStream) : IStream :=
  if !s.ok then s
  else
    match skipSpace s.buf with
    | [] => { buf := [], ok := false }
    | _ :: rest => { buf := rest, ok := true }

/-- Extraction `stream >> n` into an `int` or `long` holding `old` (`none`: the
variable was never given a value).  On a stream that already failed, or at the
end of the input, the variable is left as it was; when the characters are not a
number, `0` is stored and the stream fails. -/
def getLong (s : IStream) (old : Option Int) : IStream × Option Int :=
  if !s.ok then (s, old)
  else
    let b := skipSpace s.buf
    if b.isEmpty then ({ buf := [], ok := false }, old)
    else
      match scanInt b with
      | none => ({ buf := b, ok := false }, some 0)
      | some (v, rest) => ({ buf := rest, ok := true }, some v)

/-- The loops `for (...) statFile >> dummy;`: `n` words are extracted and
dropped. -/
def skipWords : Nat → IStream → IStream
  | 0, s => s
  | n + 1, s => skipWords n (getWord s []).1

/-- The local variables of one pass of the loop of `getTopProcesses` after line
131, as far as they are used later.  `none` marks a variable declared without an
initial value (line 122) and never assigned. -/
structure ParsedStat where
  pid : Option Int
  comm : List Char
  utime : Option Int
  stime : Option Int
  starttime : Option Int
  deriving DecidableEq, Repr

/-- Lines 112-131: `pid` starts as `atoi(entry->d_name)`, `comm` as the empty
string, and the extractions `statFile >> pid >> comm >> state`, ten `dummy`,
`utime`, `stime`, `cutime`, `cstime`, four `dummy`, `starttime` run on the
content of the opened `stat` file. -/
def readStat (namePid : Int) (content : List Char) : ParsedStat :=
  let s0 : IStream := { buf := content, ok := true }
  let r1 := getLong s0 (some namePid)
  let r2 := getWord r1.1 []
  let s3 := getChar r2.1
  let s4 := skipWords 10 s3
  let r5 := getLong s4 none
  let r6 := getLong r5.1 none
  let r7 := getLong r6.1 none
  let r8 := getLong r7.1 none
  let s9 := skipWords 4 r8.1
  let r10 := getLong s9 none
  { pid := r1.2, comm := r2.2, utime := r5.2, stime := r6.2, starttime := r10.2 }

/-- One entry of `/proc` as `readdir` returns it, with the files the loop reads
for it: a name that does not start with a digit, a process whose `stat` file
cannot be opened, or a process whose `stat` file opened with the given content
(`namePid` is `atoi` of the name, `mem_kb` the value the `status` loop of lines
138-146 leaves). -/
inductive ProcDirEntry where
  | other
  | unopened
  | opened (namePid : Int) (stat : List Char) (mem_kb : Int)
  deriving DecidableEq, Repr

/-- Lines 111-146 for one entry.  Lines 133-134 read `utime`, `stime` and
`starttime`; reading one that holds no value is undefined. -/
def readEntry : ProcDirEntry → Option DirEntry
  | ProcDirEntry.other => some DirEntry.skipped
  | ProcDirEntry.unopened => some DirEntry.skipped
  | ProcDirEntry.opened namePid stat mem_kb =>
    match readStat namePid stat with
    | { pid := some pid, comm := comm, utime := some utime, stime := some stime,
        starttime := some starttime } =>
      some (DirEntry.proc { pid := pid, comm := comm, utime := utime, stime := stime,
                            starttime := starttime, mem_kb := mem_kb })
    | _ => none

/-- The entries of `/proc`, each read by `readEntry`. -/
def readEntries : List ProcDirEntry → Option (List DirEntry)
  | [] => some []
  | e :: es =>
    match readEntry e, readEntries es with
    | some d, some ds => some (d :: ds)
    | _, _ => none

/-- Model of `getTopProcesses` (lines 94-165) on the content of `/proc`: the
`stat` files are parsed as the source parses them. -/
def getTopProcessesRaw (sort : List ProcInfo → List ProcInfo) (uptime : ℚ) (clkTck : Int)
    (dir : Option (List ProcDirEntry)) (topN : Int) : Option (List ProcInfo) :=
  match dir with
  | none => some []
  | some entries =>
    (readEntries entries).bind fun ds => getTopProcesses sort uptime clkTck (some ds) topN

/-! ## Helper lemmas: binary floating point -/

theorem rhe_sub_le (a : ℚ) : |(roundHalfEven a : ℚ) - a| ≤ 1 / 2 := by
  have h1 : (⌊a⌋ : ℚ) ≤ a := Int.floor_le a
  have h2 : a < (⌊a⌋ : ℚ) + 1 := Int.lt_floor_add_one a
  unfold roundHalfEven
  split_ifs with c1 c2 c3
  · rw [abs_le]; constructor <;> linarith
  · rw [abs_le]; push_cast; constructor <;> linarith
  · rw [abs_le]; constructor <;> linarith
  · rw [abs_le]; push_cast; constructor <;> linarith

theorem rhe_intCast (n : Int) : roundHalfEven (n : ℚ) = n := by
  unfold roundHalfEven
  simp

theorem rhe_mono {a b : ℚ} (h : a ≤ b) : roundHalfEven a ≤ roundHalfEven b := by
  by_contra hc
  have hlt : roundHalfEven b + 1 ≤ roundHalfEven a := by omega
  have hq : ((roundHalfEven b : ℤ) : ℚ) + 1 ≤ (roundHalfEven a : ℚ) := by exact_mod_cast hlt
  have ha := abs_le.mp (rhe_sub_le a)
  have hb := abs_le.mp (rhe_sub_le b)
  have hab : a = b := by linarith
  rw [hab] at hc
  exact hc (le_refl _)

theorem log2Fuel_spec : ∀ (fuel n : Nat), n ≤ fuel → 0 < n →
    2 ^ log2Fuel fuel n ≤ n ∧ n < 2 ^ (log2Fuel fuel n + 1)
  | 0, n, h, hn => by omega
  | fuel + 1, n, h, hn => by
    by_cases h2 : 2 ≤ n
    · have ih := log2Fuel_spec fuel (n / 2) (by omega) (by omega)
      simp only [log2Fuel, h2, if_true]
      generalize log2Fuel fuel (n / 2) = k at ih
      obtain ⟨ih1, ih2⟩ := ih
      rw [pow_succ, pow_succ]
      rw [pow_succ] at ih2
      constructor <;> omega
    · simp only [log2Fuel, h2, if_false]
      constructor <;> omega

theorem ilog2_spec (n : Nat) (hn : 0 < n) : 2 ^ ilog2 n ≤ n ∧ n < 2 ^ (ilog2 n + 1) :=
  log2Fuel_spec n n (le_refl n) hn

theorem binExp_spec (x : ℚ) (hx : 0 < x) :
    (2 : ℚ) ^ binExp x ≤ x ∧ x < (2 : ℚ) ^ (binExp x + 1) := by
  have hnum : 0 < x.num := Rat.num_pos.mpr hx
  have hden : 0 < x.den := x.den_pos
  have hn : 0 < x.num.toNat := by omega
  obtain ⟨a1, a2⟩ := ilog2_spec x.num.toNat hn
  obtain ⟨b1, b2⟩ := ilog2_spec x.den hden
  have hxeq : x = (x.num.toNat : ℚ) / (x.den : ℚ) := by
    have h := (Rat.num_div_den x).symm
    have hc : ((x.num.toNat : ℕ) : ℤ) = x.num := Int.toNat_of_nonneg hnum.le
    have hc' : ((x.num.toNat : ℕ) : ℚ) = (x.num : ℚ) := by exact_mod_cast hc
    rw [hc']
    exact h
  have a1q : (2 : ℚ) ^ ilog2 x.num.toNat ≤ (x.num.toNat : ℚ) := by exact_mod_cast a1
  have a2q : (x.num.toNat : ℚ) < (2 : ℚ) ^ (ilog2 x.num.toNat + 1) := by exact_mod_cast a2
  have b1q : (2 : ℚ) ^ ilog2 x.den ≤ (x.den : ℚ) := by exact_mod_cast b1
  have b2q : (x.den : ℚ) < (2 : ℚ) ^ (ilog2 x.den + 1) := by exact_mod_cast b2
  have hdq : (0 : ℚ) < (x.den : ℚ) := by exact_mod_cast hden
  have two_ne : (2 : ℚ) ≠ 0 := by norm_num
  have hpb : (0 : ℚ) < (2 : ℚ) ^ ilog2 x.den := by positivity
  -- the two candidate bounds
  have hup : x < (2 : ℚ) ^ ((ilog2 x.num.toNat : Int) - (ilog2 x.den : Int) + 1) := by
    have e1 : (2 : ℚ) ^ ((ilog2 x.num.toNat : Int) - (ilog2 x.den : Int) + 1)
        = (2 : ℚ) ^ (ilog2 x.num.toNat + 1) / (2 : ℚ) ^ ilog2 x.den := by
      rw [show ((ilog2 x.num.toNat : Int) - (ilog2 x.den : Int) + 1)
        = ((ilog2 x.num.toNat + 1 : ℕ) : Int) - ((ilog2 x.den : ℕ) : Int) by push_cast; ring]
      rw [zpow_sub₀ two_ne, zpow_natCast, zpow_natCast]
    rw [e1]
    refine lt_of_eq_of_lt hxeq ?_
    rw [div_lt_div_iff₀ hdq hpb]
    calc (x.num.toNat : ℚ) * (2 : ℚ) ^ ilog2 x.den
        ≤ (x.num.toNat : ℚ) * (x.den : ℚ) := by
          apply mul_le_mul_of_nonneg_left b1q
          exact_mod_cast Nat.zero_le _
      _ < (2 : ℚ) ^ (ilog2 x.num.toNat + 1) * (x.den : ℚ) := by
          apply mul_lt_mul_of_pos_right a2q hdq
  have hlow : (2 : ℚ) ^ ((ilog2 x.num.toNat : Int) - (ilog2 x.den : Int) - 1) ≤ x := by
    have e1 : (2 : ℚ) ^ ((ilog2 x.num.toNat : Int) - (ilog2 x.den : Int) - 1)
        = (2 : ℚ) ^ (ilog2 x.num.toNat) / (2 : ℚ) ^ (ilog2 x.den + 1) := by
      rw [show ((ilog2 x.num.toNat : Int) - (ilog2 x.den : Int) - 1)
        = ((ilog2 x.num.toNat : ℕ) : Int) - ((ilog2 x.den + 1 : ℕ) : Int) by push_cast; ring]
      rw [zpow_sub₀ two_ne, zpow_natCast, zpow_natCast]
    have hpb' : (0 : ℚ) < (2 : ℚ) ^ (ilog2 x.den + 1) := by positivity
    rw [e1]
    refine le_of_le_of_eq ?_ hxeq.symm
    rw [div_le_div_iff₀ hpb' hdq]
    calc (2 : ℚ) ^ ilog2 x.num.toNat * (x.den : ℚ)
        ≤ (x.num.toNat : ℚ) * (x.den : ℚ) :=
          mul_le_mul_of_nonneg_right a1q hdq.le
      _ ≤ (x.num.toNat : ℚ) * (2 : ℚ) ^ (ilog2 x.den + 1) := by
          apply mul_le_mul_of_nonneg_left b2q.le
          exact_mod_cast Nat.zero_le _
  unfold binExp
  split_ifs with hc
  · exact ⟨hc, hup⟩
  · refine ⟨hlow, ?_⟩
    rw [sub_add_cancel]
    exact not_le.mp hc

theorem binExp_mono {x y : ℚ} (hx : 0 < x) (hxy : x ≤ y) : binExp x ≤ binExp y := by
  by_contra hc
  have h1 : binExp y + 1 ≤ binExp x := by omega
  have hy := (binExp_spec y (lt_of_lt_of_le hx hxy)).2
  have hxl := (binExp_spec x hx).1
  have : (2 : ℚ) ^ (binExp y + 1) ≤ (2 : ℚ) ^ binExp x :=
    zpow_le_zpow_right₀ (by norm_num) h1
  linarith

theorem ulpOf_pos (p : Nat) (x : ℚ) : 0 < ulpOf p x := by
  unfold ulpOf
  positivity

theorem two_zpow_binExp (p : Nat) (hp : 1 ≤ p) (x : ℚ) :
    (2 : ℚ) ^ binExp x = (2 : ℚ) ^ (p - 1) * ulpOf p x ∧
      (2 : ℚ) ^ (binExp x + 1) = (2 : ℚ) ^ p * ulpOf p x := by
  have two_ne : (2 : ℚ) ≠ 0 := by norm_num
  unfold ulpOf
  constructor
  · rw [← zpow_natCast, ← zpow_add₀ two_ne]
    congr 1
    rw [Nat.cast_sub hp]
    push_cast
    ring
  · rw [← zpow_natCast, ← zpow_add₀ two_ne]
    congr 1
    ring

theorem scaled_bounds (p : Nat) (hp : 1 ≤ p) (x : ℚ) (hx : 0 < x) :
    (((2 ^ (p - 1) : Int)) : ℚ) ≤ x / ulpOf p x ∧ x / ulpOf p x < (((2 ^ p : Int)) : ℚ) := by
  obtain ⟨h1, h2⟩ := binExp_spec x hx
  obtain ⟨e1, e2⟩ := two_zpow_binExp p hp x
  have hu := ulpOf_pos p x
  rw [e1] at h1
  rw [e2] at h2
  constructor
  · rw [le_div_iff₀ hu]
    push_cast
    exact h1
  · rw [div_lt_iff₀ hu]
    push_cast
    exact h2

theorem rhe_scaled_bounds (p : Nat) (hp : 1 ≤ p) (x : ℚ) (hx : 0 < x) :
    (2 ^ (p - 1) : Int) ≤ roundHalfEven (x / ulpOf p x) ∧
      roundHalfEven (x / ulpOf p x) ≤ (2 ^ p : Int) := by
  obtain ⟨h1, h2⟩ := scaled_bounds p hp x hx
  constructor
  · have := rhe_mono h1
    rwa [rhe_intCast] at this
  · have := rhe_mono h2.le
    rwa [rhe_intCast] at this

theorem roundMag_bounds (p : Nat) (hp : 1 ≤ p) (x : ℚ) (hx : 0 < x) :
    (2 : ℚ) ^ binExp x ≤ roundMag p x ∧ roundMag p x ≤ (2 : ℚ) ^ (binExp x + 1) := by
  obtain ⟨h1, h2⟩ := rhe_scaled_bounds p hp x hx
  obtain ⟨e1, e2⟩ := two_zpow_binExp p hp x
  have hu := ulpOf_pos p x
  have h1q : ((2 : ℚ) ^ (p - 1)) ≤ (roundHalfEven (x / ulpOf p x) : ℚ) := by exact_mod_cast h1
  have h2q : (roundHalfEven (x / ulpOf p x) : ℚ) ≤ ((2 : ℚ) ^ p) := by exact_mod_cast h2
  rw [e1, e2]
  unfold roundMag
  exact ⟨mul_le_mul_of_nonneg_right h1q hu.le, mul_le_mul_of_nonneg_right h2q hu.le⟩

theorem roundMag_pos (p : Nat) (hp : 1 ≤ p) (x : ℚ) (hx : 0 < x) : 0 < roundMag p x :=
  lt_of_lt_of_le (by positivity) (roundMag_bounds p hp x hx).1

theorem roundMag_err (p : Nat) (hp : 1 ≤ p) (x : ℚ) (hx : 0 < x) :
    |roundMag p x - x| ≤ x / 2 ^ p := by
  obtain ⟨e1, _⟩ := two_zpow_binExp p hp x
  have hu := ulpOf_pos p x
  have hx1 := (binExp_spec x hx).1
  have hr := rhe_sub_le (x / ulpOf p x)
  have heq : roundMag p x - x
      = ((roundHalfEven (x / ulpOf p x) : ℚ) - x / ulpOf p x) * ulpOf p x := by
    unfold roundMag
    field_simp
  have hp2 : (2 : ℚ) ^ p = 2 * (2 : ℚ) ^ (p - 1) := by
    rw [← pow_succ']
    congr 1
    omega
  rw [heq, abs_mul, abs_of_pos hu]
  have hstep : (1 / 2 : ℚ) * ulpOf p x ≤ x / 2 ^ p := by
    rw [le_div_iff₀ (by positivity), hp2]
    rw [e1] at hx1
    linarith
  exact le_trans (mul_le_mul_of_nonneg_right hr hu.le) hstep

theorem roundMag_mono (p : Nat) (hp : 1 ≤ p) {x y : ℚ} (hx : 0 < x) (hxy : x ≤ y) :
    roundMag p x ≤ roundMag p y := by
  have hy : 0 < y := lt_of_lt_of_le hx hxy
  rcases (binExp_mono hx hxy).lt_or_eq with hlt | heq
  · have h1 := (roundMag_bounds p hp x hx).2
    have h2 := (roundMag_bounds p hp y hy).1
    have : (2 : ℚ) ^ (binExp x + 1) ≤ (2 : ℚ) ^ binExp y :=
      zpow_le_zpow_right₀ (by norm_num) (by omega)
    linarith
  · have hu : ulpOf p x = ulpOf p y := by
      unfold ulpOf
      rw [heq]
    have hpos := ulpOf_pos p y
    unfold roundMag
    rw [hu]
    apply mul_le_mul_of_nonneg_right _ hpos.le
    have : x / ulpOf p y ≤ y / ulpOf p y := div_le_div_of_nonneg_right hxy hpos.le
    exact_mod_cast rhe_mono this

theorem roundMag_natCast (p : Nat) (n : Nat) (hn : 0 < n) (hlt : n < 2 ^ p) :
    roundMag p (n : ℚ) = n := by
  have hx : (0 : ℚ) < (n : ℚ) := by exact_mod_cast hn
  obtain ⟨h1, h2⟩ := binExp_spec (n : ℚ) hx
  have two_ne : (2 : ℚ) ≠ 0 := by norm_num
  -- the exponent is below the precision
  have he : binExp (n : ℚ) ≤ (p : Int) - 1 := by
    by_contra hc
    have hge : (p : Int) ≤ binExp (n : ℚ) := by omega
    have : (2 : ℚ) ^ (p : Int) ≤ (2 : ℚ) ^ binExp (n : ℚ) :=
      zpow_le_zpow_right₀ (by norm_num) hge
    rw [zpow_natCast] at this
    have hq : (n : ℚ) < (2 : ℚ) ^ p := by exact_mod_cast hlt
    linarith
  obtain ⟨j, hj⟩ := Int.eq_ofNat_of_zero_le (sub_nonneg.mpr he)
  have hu : ulpOf p (n : ℚ) = 1 / (2 : ℚ) ^ j := by
    unfold ulpOf
    rw [show binExp (n : ℚ) - ((p : Int) - 1) = -(j : Int) by omega, zpow_neg, zpow_natCast,
      one_div]
  have hscaled : (n : ℚ) / ulpOf p (n : ℚ) = (((n * 2 ^ j : Nat) : Int) : ℚ) := by
    rw [hu]
    push_cast
    field_simp
  unfold roundMag
  rw [hscaled, rhe_intCast, hu]
  push_cast
  field_simp

theorem roundBin_zero (p : Nat) : roundBin p 0 = 0 := by
  simp [roundBin]

theorem roundBin_of_pos (p : Nat) {x : ℚ} (hx : 0 < x) : roundBin p x = roundMag p x := by
  simp [roundBin, hx, ne_of_gt hx]

theorem roundBin_of_neg (p : Nat) {x : ℚ} (hx : x < 0) : roundBin p x = -roundMag p (-x) := by
  simp [roundBin, ne_of_lt hx, not_lt.mpr hx.le]

theorem roundBin_neg (p : Nat) (x : ℚ) : roundBin p (-x) = -roundBin p x := by
  rcases lt_trichotomy x 0 with h | h | h
  · rw [roundBin_of_neg p h, roundBin_of_pos p (neg_pos.mpr h), neg_neg]
  · subst h
    simp [roundBin_zero]
  · rw [roundBin_of_pos p h, roundBin_of_neg p (neg_neg_of_pos h), neg_neg]

theorem roundBin_pos (p : Nat) (hp : 1 ≤ p) {x : ℚ} (hx : 0 < x) : 0 < roundBin p x := by
  rw [roundBin_of_pos p hx]
  exact roundMag_pos p hp x hx

theorem roundBin_neg_of_neg (p : Nat) (hp : 1 ≤ p) {x : ℚ} (hx : x < 0) : roundBin p x < 0 := by
  rw [roundBin_of_neg p hx]
  exact neg_neg_of_pos (roundMag_pos p hp (-x) (neg_pos.mpr hx))

theorem roundBin_nonneg (p : Nat) (hp : 1 ≤ p) {x : ℚ} (hx : 0 ≤ x) : 0 ≤ roundBin p x := by
  rcases hx.lt_or_eq with h | h
  · exact (roundBin_pos p hp h).le
  · rw [← h, roundBin_zero]

theorem roundBin_eq_zero_iff (p : Nat) (hp : 1 ≤ p) (x : ℚ) : roundBin p x = 0 ↔ x = 0 := by
  constructor
  · intro h
    rcases lt_trichotomy x 0 with hx | hx | hx
    · exact absurd h (ne_of_lt (roundBin_neg_of_neg p hp hx))
    · exact hx
    · exact absurd h (ne_of_gt (roundBin_pos p hp hx))
  · intro h
    rw [h, roundBin_zero]

theorem roundBin_mono (p : Nat) (hp : 1 ≤ p) {x y : ℚ} (hxy : x ≤ y) :
    roundBin p x ≤ roundBin p y := by
  rcases lt_trichotomy x 0 with hx | hx | hx
  · rcases lt_trichotomy y 0 with hy | hy | hy
    · rw [roundBin_of_neg p hx, roundBin_of_neg p hy]
      exact neg_le_neg (roundMag_mono p hp (neg_pos.mpr hy) (neg_le_neg hxy))
    · rw [hy, roundBin_zero]
      exact (roundBin_neg_of_neg p hp hx).le
    · exact le_trans (roundBin_neg_of_neg p hp hx).le (roundBin_pos p hp hy).le
  · rw [hx, roundBin_zero]
    exact roundBin_nonneg p hp (hx ▸ hxy)
  · rw [roundBin_of_pos p hx, roundBin_of_pos p (lt_of_lt_of_le hx hxy)]
    exact roundMag_mono p hp hx hxy

theorem roundBin_err (p : Nat) (hp : 1 ≤ p) (x : ℚ) : |roundBin p x - x| ≤ |x| / 2 ^ p := by
  rcases lt_trichotomy x 0 with hx | hx | hx
  · rw [roundBin_of_neg p hx, abs_of_neg hx]
    have h := roundMag_err p hp (-x) (neg_pos.mpr hx)
    rw [show -roundMag p (-x) - x = -(roundMag p (-x) - -x) by ring, abs_neg]
    exact h
  · subst hx
    simp [roundBin_zero]
  · rw [roundBin_of_pos p hx, abs_of_pos hx]
    exact roundMag_err p hp x hx

theorem roundBin_natCast (p : Nat) (n : Nat) (hlt : n < 2 ^ p) : roundBin p (n : ℚ) = n := by
  rcases Nat.eq_zero_or_pos n with h | h
  · subst h
    simp [roundBin_zero]
  · rw [roundBin_of_pos p (by exact_mod_cast h)]
    exact roundMag_natCast p n h hlt

theorem roundBin_intCast (p : Nat) (n : Int) (hlt : |n| < 2 ^ p) : roundBin p (n : ℚ) = n := by
  rcases le_or_lt 0 n with h | h
  · obtain ⟨m, rfl⟩ := Int.eq_ofNat_of_zero_le h
    have hm : m < 2 ^ p := by
      rw [abs_of_nonneg h] at hlt
      exact_mod_cast hlt
    exact_mod_cast roundBin_natCast p m hm
  · obtain ⟨m, hm⟩ := Int.eq_ofNat_of_zero_le (neg_nonneg.mpr h.le)
    have hn : n = -(m : Int) := by omega
    have hm2 : m < 2 ^ p := by
      rw [abs_of_neg h, hm] at hlt
      exact_mod_cast hlt
    rw [hn]
    push_cast
    rw [roundBin_neg, roundBin_natCast p m hm2]

/-- Two-sided form of the rounding error for a non-negative value. -/
theorem roundBin_between (p : Nat) (hp : 1 ≤ p) {x : ℚ} (hx : 0 ≤ x) :
    x * (1 - 1 / 2 ^ p) ≤ roundBin p x ∧ roundBin p x ≤ x * (1 + 1 / 2 ^ p) := by
  have h := abs_le.mp (roundBin_err p hp x)
  rw [abs_of_nonneg hx] at h
  constructor
  · have : x * (1 - 1 / 2 ^ p) = x - x / 2 ^ p := by ring
    linarith
  · have : x * (1 + 1 / 2 ^ p) = x + x / 2 ^ p := by ring
    linarith

/-! ### Consequences for `f32` and `f64` -/

theorem f32_zero : f32 0 = 0 := roundBin_zero 24

theorem f64_zero : f64 0 = 0 := roundBin_zero 53

theorem f32_mono {x y : ℚ} (h : x ≤ y) : f32 x ≤ f32 y := roundBin_mono 24 (by norm_num) h

theorem f64_mono {x y : ℚ} (h : x ≤ y) : f64 x ≤ f64 y := roundBin_mono 53 (by norm_num) h

theorem f32_pos {x : ℚ} (h : 0 < x) : 0 < f32 x := roundBin_pos 24 (by norm_num) h

theorem f64_pos {x : ℚ} (h : 0 < x) : 0 < f64 x := roundBin_pos 53 (by norm_num) h

theorem f32_nonneg {x : ℚ} (h : 0 ≤ x) : 0 ≤ f32 x := roundBin_nonneg 24 (by norm_num) h

theorem f64_nonneg {x : ℚ} (h : 0 ≤ x) : 0 ≤ f64 x := roundBin_nonneg 53 (by norm_num) h

theorem f32_neg_of_neg {x : ℚ} (h : x < 0) : f32 x < 0 := roundBin_neg_of_neg 24 (by norm_num) h

theorem f32_nonpos {x : ℚ} (h : x ≤ 0) : f32 x ≤ 0 := by
  have := f32_mono h
  rwa [f32_zero] at this

theorem f64_nonpos {x : ℚ} (h : x ≤ 0) : f64 x ≤ 0 := by
  have := f64_mono h
  rwa [f64_zero] at this

theorem f32_eq_zero_iff (x : ℚ) : f32 x = 0 ↔ x = 0 := roundBin_eq_zero_iff 24 (by norm_num) x

theorem f64_eq_zero_iff (x : ℚ) : f64 x = 0 ↔ x = 0 := roundBin_eq_zero_iff 53 (by norm_num) x

theorem f64_intCast (n : Int) (h : |n| < 2 ^ 53) : f64 (n : ℚ) = n := roundBin_intCast 53 n h

theorem f32_between {x : ℚ} (h : 0 ≤ x) :
    x * (1 - 1 / 2 ^ 24) ≤ f32 x ∧ f32 x ≤ x * (1 + 1 / 2 ^ 24) :=
  roundBin_between 24 (by norm_num) h

theorem f64_between {x : ℚ} (h : 0 ≤ x) :
    x * (1 - 1 / 2 ^ 53) ≤ f64 x ∧ f64 x ≤ x * (1 + 1 / 2 ^ 53) :=
  roundBin_between 53 (by norm_num) h

theorem f32_one : f32 1 = 1 := by decide!

theorem f32_hundred : f32 100 = 100 := by decide!

theorem f64_one : f64 1 = 1 := by decide!

/-- The largest value a `float` quotient of at most `100 * (1 + 2^-24)` rounds to. -/
theorem f32_hundred_up : f32 (100 * (1 + 1 / 2 ^ 24)) = 100 + 1 / 2 ^ 17 := by decide!

/-- Error of a value computed as `100 * b / t` with two roundings on the
numerator, one on the denominator and one on the quotient, each within the
factors `c` and `C`. -/
theorem chain_product_quotient (c C b t fb P ft v : ℚ) (hc : 0 < c) (hC : 0 < C)
    (hb : 0 ≤ b) (ht : 0 < t)
    (h1 : b * c ≤ fb ∧ fb ≤ b * C) (h2 : fb * 100 * c ≤ P ∧ P ≤ fb * 100 * C)
    (h3 : t * c ≤ ft ∧ ft ≤ t * C) (h4 : P / ft * c ≤ v ∧ v ≤ P / ft * C) :
    100 * b / t * (c ^ 3 / C) ≤ v ∧ v ≤ 100 * b / t * (C ^ 3 / c) := by
  have hfb : 0 ≤ fb := le_trans (mul_nonneg hb hc.le) h1.1
  have hft : 0 < ft := lt_of_lt_of_le (mul_pos ht hc) h3.1
  have hP : 0 ≤ P := le_trans (mul_nonneg (mul_nonneg hfb (by norm_num)) hc.le) h2.1
  have hPlo : b * c * 100 * c ≤ P :=
    le_trans (by
      have := mul_le_mul_of_nonneg_right h1.1 (mul_nonneg (by norm_num : (0 : ℚ) ≤ 100) hc.le)
      linarith) h2.1
  have hPhi : P ≤ b * C * 100 * C :=
    le_trans h2.2 (by
      have := mul_le_mul_of_nonneg_right h1.2 (mul_nonneg (by norm_num : (0 : ℚ) ≤ 100) hC.le)
      linarith)
  have htC : 0 < t * C := mul_pos ht hC
  have htc : 0 < t * c := mul_pos ht hc
  constructor
  · have hq : b * c * 100 * c / (t * C) ≤ P / ft := by
      calc b * c * 100 * c / (t * C) ≤ P / (t * C) :=
            div_le_div_of_nonneg_right hPlo htC.le
        _ ≤ P / ft := div_le_div_of_nonneg_left hP hft h3.2
    have h5 : b * c * 100 * c / (t * C) * c ≤ v :=
      le_trans (mul_le_mul_of_nonneg_right hq hc.le) h4.1
    have e : 100 * b / t * (c ^ 3 / C) = b * c * 100 * c / (t * C) * c := by
      field_simp
      ring
    rw [e]
    exact h5
  · have hq : P / ft ≤ b * C * 100 * C / (t * c) := by
      calc P / ft ≤ P / (t * c) := div_le_div_of_nonneg_left hP htc h3.1
        _ ≤ b * C * 100 * C / (t * c) := div_le_div_of_nonneg_right hPhi htc.le
    have h5 : v ≤ b * C * 100 * C / (t * c) * C :=
      le_trans h4.2 (mul_le_mul_of_nonneg_right hq hC.le)
    have e : 100 * b / t * (C ^ 3 / c) = b * C * 100 * C / (t * c) * C := by
      field_simp
      ring
    rw [e]
    exact h5

/-- Error of a value computed as `u / t * 100` with one rounding on each operand,
one on the quotient and one on the product. -/
theorem chain_quotient_product (c C u t fu ft q r : ℚ) (hc : 0 < c) (hC : 0 < C)
    (hu : 0 ≤ u) (ht : 0 < t)
    (h1 : u * c ≤ fu ∧ fu ≤ u * C) (h2 : t * c ≤ ft ∧ ft ≤ t * C)
    (h3 : fu / ft * c ≤ q ∧ q ≤ fu / ft * C) (h4 : q * 100 * c ≤ r ∧ r ≤ q * 100 * C) :
    100 * u / t * (c ^ 3 / C) ≤ r ∧ r ≤ 100 * u / t * (C ^ 3 / c) := by
  have hfu : 0 ≤ fu := le_trans (mul_nonneg hu hc.le) h1.1
  have hft : 0 < ft := lt_of_lt_of_le (mul_pos ht hc) h2.1
  have htC : 0 < t * C := mul_pos ht hC
  have htc : 0 < t * c := mul_pos ht hc
  have hc100 : (0 : ℚ) ≤ 100 * c := mul_nonneg (by norm_num) hc.le
  have hC100 : (0 : ℚ) ≤ 100 * C := mul_nonneg (by norm_num) hC.le
  constructor
  · have hq : u * c / (t * C) ≤ fu / ft := by
      calc u * c / (t * C) ≤ fu / (t * C) := div_le_div_of_nonneg_right h1.1 htC.le
        _ ≤ fu / ft := div_le_div_of_nonneg_left hfu hft h2.2
    have hq2 : u * c / (t * C) * c ≤ q :=
      le_trans (mul_le_mul_of_nonneg_right hq hc.le) h3.1
    have h5 : u * c / (t * C) * c * (100 * c) ≤ r := by
      have := mul_le_mul_of_nonneg_right hq2 hc100
      linarith [h4.1]
    have e : 100 * u / t * (c ^ 3 / C) = u * c / (t * C) * c * (100 * c) := by
      field_simp
      ring
    rw [e]
    exact h5
  · have hq : fu / ft ≤ u * C / (t * c) := by
      calc fu / ft ≤ fu / (t * c) := div_le_div_of_nonneg_left hfu htc h2.1
        _ ≤ u * C / (t * c) := div_le_div_of_nonneg_right h1.2 htc.le
    have hq2 : q ≤ u * C / (t * c) * C :=
      le_trans h3.2 (mul_le_mul_of_nonneg_right hq hC.le)
    have h5 : r ≤ u * C / (t * c) * C * (100 * C) := by
      have := mul_le_mul_of_nonneg_right hq2 hC100
      linarith [h4.2]
    have e : 100 * u / t * (C ^ 3 / c) = u * C / (t * c) * C * (100 * C) := by
      field_simp
      ring
    rw [e]
    exact h5

/-- Four roundings to `float` move a non-negative value by at most the
fraction `2^-21` of it. -/
theorem within_four_roundings (E v : ℚ) (hE : 0 ≤ E)
    (h : E * ((1 - 1 / 2 ^ 24) ^ 3 / (1 + 1 / 2 ^ 24)) ≤ v ∧
      v ≤ E * ((1 + 1 / 2 ^ 24) ^ 3 / (1 - 1 / 2 ^ 24))) :
    |v - E| ≤ E / 2 ^ 21 := by
  have hlo : (1 : ℚ) - 1 / 2 ^ 21 ≤ (1 - 1 / 2 ^ 24) ^ 3 / (1 + 1 / 2 ^ 24) := by norm_num
  have hhi : (1 + 1 / 2 ^ 24 : ℚ) ^ 3 / (1 - 1 / 2 ^ 24) ≤ 1 + 1 / 2 ^ 21 := by norm_num
  have h1 := mul_le_mul_of_nonneg_left hlo hE
  have h2 := mul_le_mul_of_nonneg_left hhi hE
  rw [abs_le]
  constructor
  · have : E * (1 - 1 / 2 ^ 21) = E - E / 2 ^ 21 := by ring
    linarith [h.1]
  · have : E * (1 + 1 / 2 ^ 21) = E + E / 2 ^ 21 := by ring
    linarith [h.2]

/-! ## Helper lemmas: CPU usage -/

theorem entryPercent_eq (cur prev : CPUData) :
    entryPercent cur prev = some (usageValue cur prev) := by
  have hdef : entryPercent cur prev =
      if totalDelta cur prev > 0 then
        fdiv32 (f32 (f32 ((busyDelta cur prev : Int) : ℚ) * 100))
          (f32 ((totalDelta cur prev : Int) : ℚ))
      else some 0 := rfl
  rw [hdef]
  unfold usageValue
  by_cases h : 0 < totalDelta cur prev
  · have hq : (0 : ℚ) < ((totalDelta cur prev : Int) : ℚ) := by exact_mod_cast h
    have hne : f32 ((totalDelta cur prev : Int) : ℚ) ≠ 0 := ne_of_gt (f32_pos hq)
    simp only [gt_iff_lt, h, if_true, fdiv32, hne, if_false]
  · simp only [gt_iff_lt, h, if_false]

theorem usageLoop_spec : ∀ (cur last : List CPUData), cur.length ≤ last.length →
    ∃ us, usageLoop cur last = some us ∧ us.length = cur.length ∧
      ∀ (i : Nat) (c l : CPUData), cur[i]? = some c → last[i]? = some l → us[i]? = some (usageValue c l)
  | [], _, _ => ⟨[], rfl, rfl, by intro i c l hc; simp at hc⟩
  | c :: cs, [], h => by simp at h
  | c :: cs, l :: ls, h => by
    obtain ⟨us, hus, hlen, hent⟩ := usageLoop_spec cs ls (by simpa using h)
    refine ⟨usageValue c l :: us, ?_, by simp [hlen], ?_⟩
    · simp [usageLoop, entryPercent_eq, hus]
    · intro i c' l' hc hl
      cases i with
      | zero =>
        simp only [List.getElem?_cons_zero, Option.some.injEq] at hc hl
        subst hc; subst hl; simp
      | succ j =>
        simp only [List.getElem?_cons_succ] at hc hl ⊢
        exact hent j c' l' hc hl

theorem usageLoop_none : ∀ (cur last : List CPUData), last.length < cur.length →
    usageLoop cur last = none
  | [], _, h => by simp at h
  | c :: cs, [], _ => rfl
  | c :: cs, l :: ls, h => by
    have := usageLoop_none cs ls (by simpa using h)
    simp [usageLoop, this]

theorem getCPUUsage_first (cur : List CPUData) :
    getCPUUsage [] cur = some (List.replicate cur.length 0, cur) := by
  simp [getCPUUsage]

theorem getCPUUsage_next (last cur : List CPUData) (hne : last ≠ [])
    (hlen : cur.length ≤ last.length) :
    ∃ us, getCPUUsage last cur = some (us, cur) ∧ us.length = cur.length ∧
      ∀ (i : Nat) (c l : CPUData), cur[i]? = some c → last[i]? = some l → us[i]? = some (usageValue c l) := by
  obtain ⟨us, hus, hl, hent⟩ := usageLoop_spec cur last hlen
  refine ⟨us, ?_, hl, hent⟩
  have : last.isEmpty = false := by
    cases last with
    | nil => exact absurd rfl hne
    | cons a t => rfl
  simp [getCPUUsage, this, hus]

theorem getCPUUsage_state (last cur : List CPUData) (h : ReadsInBounds last cur) :
    ∃ us, getCPUUsage last cur = some (us, cur) ∧ us.length = cur.length := by
  by_cases hne : last = []
  · subst hne
    exact ⟨_, getCPUUsage_first cur, by simp⟩
  · rcases h with h | h
    · exact absurd h hne
    · obtain ⟨us, h1, h2, _⟩ := getCPUUsage_next last cur hne h
      exact ⟨us, h1, h2⟩

theorem getCPUUsage_stores (last cur : List CPUData) (r : List ℚ × List CPUData)
    (h : getCPUUsage last cur = some r) : r.2 = cur := by
  unfold getCPUUsage at h
  split at h
  · cases hu : usageLoop cur last with
    | none => simp [hu] at h
    | some us =>
      simp only [hu, Option.map_some', Option.some.injEq] at h
      rw [← h]
  · simp only [Option.some.injEq] at h
    rw [← h]

theorem runCalls_chain : ∀ (snaps : List (List CPUData)) (last : List CPUData),
    List.Chain ReadsInBounds last snaps → runCalls last snaps = some (snaps.getLastD last)
  | [], _, _ => rfl
  | s :: rest, last, h => by
    rw [List.chain_cons] at h
    obtain ⟨us, hus, _⟩ := getCPUUsage_state last s h.1
    have ih := runCalls_chain rest s h.2
    simp only [runCalls, hus, Option.some_bind, ih, List.getLastD_cons]

theorem secondCall_eq (prev cur : List CPUData) :
    secondCall prev cur = (getCPUUsage prev cur).map Prod.fst := by
  simp [secondCall, getCPUUsage_first]

/-! ## Helper lemmas: processes -/

theorem truncateTop_nat (l : List ProcInfo) (n : Nat) :
    truncateTop l (n : Int) = some (l.take n) := by
  unfold truncateTop
  by_cases h : (l.length : Int) > (n : Int)
  · have hn : ¬ ((n : Int) < 0) := by omega
    simp [h, hn]
  · have hle : l.length ≤ n := by omega
    simp [h, List.take_of_length_le hle]

theorem stdSort_sorted (sort : List ProcInfo → List ProcInfo) (hs : StdSortContract sort)
    (l : List ProcInfo) : (sort l).Pairwise cpuGe :=
  (hs l).2.imp fun h => not_lt.mp h

theorem stableSortDesc_contract : StdSortContract stableSortDesc := by
  intro l
  refine ⟨List.perm_insertionSort cpuGe l, ?_⟩
  have h : (l.insertionSort cpuGe).Pairwise cpuGe := List.sorted_insertionSort cpuGe l
  exact h.imp fun hab => not_lt.mpr hab

theorem reversingSortDesc_contract : StdSortContract reversingSortDesc := by
  intro l
  refine ⟨(List.perm_insertionSort cpuGe l.reverse).trans (List.reverse_perm l), ?_⟩
  have h : (l.reverse.insertionSort cpuGe).Pairwise cpuGe :=
    List.sorted_insertionSort cpuGe l.reverse
  exact h.imp fun hab => not_lt.mpr hab

/-- Two descending rearrangements of the same records carry the same `cpu`
values position by position. -/
theorem sorted_cpu_unique (l₁ l₂ : List ProcInfo) (hp : l₁.Perm l₂)
    (h₁ : l₁.Pairwise cpuGe) (h₂ : l₂.Pairwise cpuGe) :
    l₁.map ProcInfo.cpu = l₂.map ProcInfo.cpu := by
  have hp' : (l₁.map ProcInfo.cpu).Perm (l₂.map ProcInfo.cpu) := hp.map _
  have s₁ : (l₁.map ProcInfo.cpu).Sorted (· ≥ ·) := by
    rw [List.Sorted, List.pairwise_map]
    exact h₁
  have s₂ : (l₂.map ProcInfo.cpu).Sorted (· ≥ ·) := by
    rw [List.Sorted, List.pairwise_map]
    exact h₂
  exact List.eq_of_perm_of_sorted hp' s₁ s₂

/-- Without ties there is only one descending rearrangement. -/
theorem sorted_unique_of_distinct (l₁ l₂ : List ProcInfo) (hp : l₁.Perm l₂)
    (h₁ : l₁.Pairwise cpuGe) (h₂ : l₂.Pairwise cpuGe)
    (hd : l₂.Pairwise fun a b => a.cpu ≠ b.cpu) : l₁ = l₂ := by
  have hd₁ : l₁.Pairwise fun a b => a.cpu ≠ b.cpu :=
    (hp.pairwise_iff (fun h => Ne.symm h)).mpr hd
  have s₁ : l₁.Sorted cpuGt :=
    (h₁.and hd₁).imp fun h => lt_of_le_of_ne h.1 (Ne.symm h.2)
  have s₂ : l₂.Sorted cpuGt :=
    (h₂.and hd).imp fun h => lt_of_le_of_ne h.1 (Ne.symm h.2)
  exact List.eq_of_perm_of_sorted hp s₁ s₂

theorem cpuUsageOf_eq (uptime : ℚ) (clkTck : Int) (hclk : clkTck ≠ 0) (s : StatRecord) :
    cpuUsageOf uptime clkTck s = some (cpuValue uptime clkTck s) := by
  have hq0 : ((clkTck : Int) : ℚ) ≠ 0 := by exact_mod_cast hclk
  have hq : f64 ((clkTck : Int) : ℚ) ≠ 0 := fun h => hq0 ((f64_eq_zero_iff _).mp h)
  unfold cpuUsageOf cpuValue secondsOf
  simp only [fdiv64, hq, if_false, Option.some_bind, gt_iff_lt]
  by_cases h : f64 (uptime - f64 (f64 (s.starttime : ℚ) / f64 (clkTck : ℚ))) ≤ 0
  · simp only [h, not_lt.mpr h, if_false, if_true]
  · have hpos : 0 < f64 (uptime - f64 (f64 (s.starttime : ℚ) / f64 (clkTck : ℚ))) :=
      not_le.mp h
    simp only [hpos, if_true, ne_of_gt hpos, if_false, Option.some_bind, Option.map_some', h]

theorem collectProcs_append (uptime : ℚ) (clkTck : Int) :
    ∀ (a b : List DirEntry) (pa pb : List ProcInfo),
      collectProcs uptime clkTck a = some pa → collectProcs uptime clkTck b = some pb →
      collectProcs uptime clkTck (a ++ b) = some (pa ++ pb)
  | [], b, pa, pb, ha, hb => by
    simp only [collectProcs, Option.some.injEq] at ha
    subst ha
    simpa using hb
  | DirEntry.skipped :: es, b, pa, pb, ha, hb => by
    simp only [collectProcs] at ha
    simpa [collectProcs] using collectProcs_append uptime clkTck es b pa pb ha hb
  | DirEntry.proc s :: es, b, pa, pb, ha, hb => by
    simp only [collectProcs] at ha
    cases hp : procInfoOf uptime clkTck s with
    | none => simp [hp] at ha
    | some p =>
      cases hes : collectProcs uptime clkTck es with
      | none => simp [hp, hes] at ha
      | some ps =>
        simp only [hp, hes, Option.some.injEq] at ha
        subst ha
        have ih := collectProcs_append uptime clkTck es b ps pb hes hb
        simp [collectProcs, hp, ih]

theorem collectProcs_defined (uptime : ℚ) (clkTck : Int) (hclk : clkTck ≠ 0) :
    ∀ es : List DirEntry, ∃ ps, collectProcs uptime clkTck es = some ps
  | [] => ⟨[], rfl⟩
  | DirEntry.skipped :: es => by
    simpa [collectProcs] using collectProcs_defined uptime clkTck hclk es
  | DirEntry.proc s :: es => by
    obtain ⟨ps, hps⟩ := collectProcs_defined uptime clkTck hclk es
    simp [collectProcs, procInfoOf, cpuUsageOf_eq uptime clkTck hclk s, hps]

/-! ## Claims: CPU usage -/

/-- C1, as stated, fails: with previous entry `{idle: 100}` and current entry
`{user: 200}` (the idle counter went back) the total delta is `100 > 0` and the
second call returns `200`, which is above `100`: the quotient is not clamped.
Even with no counter going back the value can pass `100`: `busy = total =
671091` is returned as `100 + 2^-17`, because the `float` product
`671091 * 100` rounds up. -/
theorem usage_not_clamped :
    [cpuOf 0 100].length = [cpuOf 200 0].length ∧
      0 < totalDelta (cpuOf 200 0) (cpuOf 0 100) ∧
      secondCall [cpuOf 0 100] [cpuOf 200 0] = some [200] ∧ ¬ ((200 : ℚ) ≤ 100) ∧
      0 < totalDelta (cpuOf 671091 0) (cpuOf 0 0) ∧
      secondCall [cpuOf 0 0] [cpuOf 671091 0] = some [13107201 / 131072] ∧
      ¬ ((13107201 / 131072 : ℚ) ≤ 100) := by
  refine ⟨rfl, by decide, by decide!, by norm_num, by decide, by decide!, by norm_num⟩

/-- C1, amended: for snapshots of equal entry count and an entry `i` with total
delta `> 0` and `0 <= busy <= total` (as when none of its counters went back),
the second call returns for entry `i` the binary32 value of
`busy * 100 / total`, not clamped, and that value lies in `[0, 100 + 2^-17]`. -/
theorem usage_bounded_when_monotone (prev cur : List CPUData)
    (hlen : prev.length = cur.length) (i : Nat) (c l : CPUData) (hc : cur[i]? = some c)
    (hl : prev[i]? = some l) (htot : 0 < totalDelta c l)
    (hb0 : 0 ≤ busyDelta c l) (hbt : busyDelta c l ≤ totalDelta c l) :
    ∃ us v, secondCall prev cur = some us ∧ us[i]? = some v ∧
      v = f32 (f32 (f32 (busyDelta c l : ℚ) * 100) / f32 (totalDelta c l : ℚ)) ∧
      0 ≤ v ∧ v ≤ 100 + 1 / 2 ^ 17 := by
  have hne : prev ≠ [] := by
    intro h
    subst h
    simp at hl
  obtain ⟨us, hus, _, hent⟩ := getCPUUsage_next prev cur hne (le_of_eq hlen.symm)
  have hv := hent i c l hc hl
  have hb0q : (0 : ℚ) ≤ (busyDelta c l : ℚ) := by exact_mod_cast hb0
  have htq : (0 : ℚ) < (totalDelta c l : ℚ) := by exact_mod_cast htot
  have hbtq : (busyDelta c l : ℚ) ≤ (totalDelta c l : ℚ) := by exact_mod_cast hbt
  have hfb0 : 0 ≤ f32 (busyDelta c l : ℚ) := f32_nonneg hb0q
  have hft : 0 < f32 (totalDelta c l : ℚ) := f32_pos htq
  have hfbt : f32 (busyDelta c l : ℚ) ≤ f32 (totalDelta c l : ℚ) := f32_mono hbtq
  have hprod0 : 0 ≤ f32 (busyDelta c l : ℚ) * 100 := mul_nonneg hfb0 (by norm_num)
  have hP0 : 0 ≤ f32 (f32 (busyDelta c l : ℚ) * 100) := f32_nonneg hprod0
  have hPhi := (f32_between hprod0).2
  have hQ0 : 0 ≤ f32 (f32 (busyDelta c l : ℚ) * 100) / f32 (totalDelta c l : ℚ) :=
    div_nonneg hP0 hft.le
  have hQhi : f32 (f32 (busyDelta c l : ℚ) * 100) / f32 (totalDelta c l : ℚ)
      ≤ 100 * (1 + 1 / 2 ^ 24) := by
    rw [div_le_iff₀ hft]
    have h1 : f32 (busyDelta c l : ℚ) * 100 * (1 + 1 / 2 ^ 24)
        ≤ f32 (totalDelta c l : ℚ) * 100 * (1 + 1 / 2 ^ 24) :=
      mul_le_mul_of_nonneg_right (mul_le_mul_of_nonneg_right hfbt (by norm_num))
        (by norm_num)
    linarith
  refine ⟨us, f32 (f32 (f32 (busyDelta c l : ℚ) * 100) / f32 (totalDelta c l : ℚ)),
    ?_, ?_, rfl, f32_nonneg hQ0, ?_⟩
  · rw [secondCall_eq, hus]
    rfl
  · rw [hv]
    simp [usageValue, htot]
  · have := f32_mono hQhi
    rwa [f32_hundred_up] at this

/-- Concrete instance for C1 (amended), at baseline `{user: 100, idle: 900}` and
current snapshot `{user: 150, idle: 950}`. -/
theorem usage_bounded_when_monotone_witness :
    0 ≤ busyDelta (cpuOf 150 950) (cpuOf 100 900) ∧
      busyDelta (cpuOf 150 950) (cpuOf 100 900) ≤ totalDelta (cpuOf 150 950) (cpuOf 100 900) ∧
      ∃ (us : List ℚ) (v : ℚ),
        secondCall [cpuOf 100 900] [cpuOf 150 950] = some us ∧ us[0]? = some v ∧
        0 ≤ v ∧ v ≤ 100 + 1 / 2 ^ 17 :=
  let ⟨us, v, h1, h2, _, h4, h5⟩ :=
    usage_bounded_when_monotone [cpuOf 100 900] [cpuOf 150 950] rfl 0 (cpuOf 150 950)
      (cpuOf 100 900) rfl rfl (by decide) (by decide) (by decide)
  ⟨by decide, by decide, us, v, h1, h2, h4, h5⟩

/-- C2, as stated, fails: with a stored baseline of two entries and a current
snapshot of one entry the call is no cold start; it returns `50` for the entry,
computed against baseline entry 0, not `0`. -/
theorem mismatch_is_no_cold_start :
    [cpuOf 150 950].length ≠ [cpuOf 100 900, cpuOf 100 900].length ∧
      getCPUUsage [cpuOf 100 900, cpuOf 100 900] [cpuOf 150 950]
        = some ([50], [cpuOf 150 950]) ∧
      ([50] : List ℚ) ≠ List.replicate [cpuOf 150 950].length 0 := by
  refine ⟨by decide, by decide!, by simp⟩

/-- C2, amended: when the current snapshot has fewer entries than the stored
baseline, the call is an ordinary one: it returns one usage per entry of the
current snapshot, entry `i` computed from the deltas against baseline entry `i`
(the binary32 value of `busy * 100 / total`, or `0` when `total <= 0`), and
stores the current snapshot as the new baseline. -/
theorem fewer_entries_ordinary_call (last cur : List CPUData)
    (hlen : cur.length < last.length) :
    ∃ us, getCPUUsage last cur = some (us, cur) ∧ us.length = cur.length ∧
      ∀ (i : Nat) (c l : CPUData), cur[i]? = some c → last[i]? = some l →
        us[i]? = some (if 0 < totalDelta c l then
          f32 (f32 (f32 (busyDelta c l : ℚ) * 100) / f32 (totalDelta c l : ℚ)) else 0) := by
  have hne : last ≠ [] := by
    intro h
    subst h
    simp at hlen
  exact getCPUUsage_next last cur hne (le_of_lt hlen)

/-- Concrete instance for C2 (amended): baseline of two entries, current
snapshot of one. -/
theorem fewer_entries_ordinary_call_witness :
    ∃ us, getCPUUsage [cpuOf 100 900, cpuOf 100 900] [cpuOf 150 950]
        = some (us, [cpuOf 150 950]) ∧ us.length = 1 ∧ us[0]? = some 50 := by
  obtain ⟨us, h1, h2, h3⟩ :=
    fewer_entries_ordinary_call [cpuOf 100 900, cpuOf 100 900] [cpuOf 150 950] (by decide)
  refine ⟨us, h1, h2, ?_⟩
  rw [h3 0 (cpuOf 150 950) (cpuOf 100 900) rfl rfl]
  decide!

/-- C3, as stated, fails: the value is a `float`.  With baseline all zero and
current entry `{user: 1, idle: 2}` no counter went back, `busy = 1`,
`total = 3`, and the call returns `8738133 / 262144` (33.3333321), not
`100 * 1 / 3`. -/
theorem usage_is_not_exact_quotient :
    busyDelta (cpuOf 1 2) (cpuOf 0 0) = 1 ∧ totalDelta (cpuOf 1 2) (cpuOf 0 0) = 3 ∧
      getCPUUsage [cpuOf 0 0] [cpuOf 1 2] = some ([8738133 / 262144], [cpuOf 1 2]) ∧
      (8738133 / 262144 : ℚ) ≠ 100 * 1 / 3 := by
  refine ⟨by decide, by decide, by decide!, by norm_num⟩

/-- C3, amended: on a call with a stored baseline of the same entry count, for
an entry `i` none of whose counters went back and whose total delta is `> 0`,
the usage returned for entry `i` is the binary32 value of `busy * 100 / total`
(`busy` converted to `float`, multiplied by `100`, divided by `total` converted
to `float`), which differs from the exact `100 * busy / total` by at most the
fraction `2^-21` of it. -/
theorem usage_is_rounded_quotient (last cur : List CPUData)
    (hlen : cur.length = last.length) (i : Nat) (c l : CPUData) (hc : cur[i]? = some c)
    (hl : last[i]? = some l)
    (hmono : l.user ≤ c.user ∧ l.nice ≤ c.nice ∧ l.sys ≤ c.sys ∧ l.idle ≤ c.idle ∧
      l.iowait ≤ c.iowait ∧ l.irq ≤ c.irq ∧ l.softirq ≤ c.softirq ∧ l.steal ≤ c.steal)
    (htot : 0 < totalDelta c l) :
    ∃ us v, getCPUUsage last cur = some (us, cur) ∧ us[i]? = some v ∧
      v = f32 (f32 (f32 (busyDelta c l : ℚ) * 100) / f32 (totalDelta c l : ℚ)) ∧
      |v - 100 * (busyDelta c l : ℚ) / (totalDelta c l : ℚ)|
        ≤ 100 * (busyDelta c l : ℚ) / (totalDelta c l : ℚ) / 2 ^ 21 := by
  have hne : last ≠ [] := by
    intro h
    subst h
    simp at hl
  obtain ⟨us, hus, _, hent⟩ := getCPUUsage_next last cur hne (le_of_eq hlen)
  have hb0 : 0 ≤ busyDelta c l := by
    unfold busyDelta
    omega
  have hb0q : (0 : ℚ) ≤ (busyDelta c l : ℚ) := by exact_mod_cast hb0
  have htq : (0 : ℚ) < (totalDelta c l : ℚ) := by exact_mod_cast htot
  have hfb0 : 0 ≤ f32 (busyDelta c l : ℚ) := f32_nonneg hb0q
  have hft : 0 < f32 (totalDelta c l : ℚ) := f32_pos htq
  have hprod0 : 0 ≤ f32 (busyDelta c l : ℚ) * 100 := mul_nonneg hfb0 (by norm_num)
  have hQ0 : 0 ≤ f32 (f32 (busyDelta c l : ℚ) * 100) / f32 (totalDelta c l : ℚ) :=
    div_nonneg (f32_nonneg hprod0) hft.le
  have hchain := chain_product_quotient (1 - 1 / 2 ^ 24) (1 + 1 / 2 ^ 24)
    (busyDelta c l : ℚ) (totalDelta c l : ℚ) _ _ _ _ (by norm_num) (by norm_num) hb0q htq
    (f32_between hb0q) (f32_between hprod0) (f32_between htq.le) (f32_between hQ0)
  refine ⟨us, f32 (f32 (f32 (busyDelta c l : ℚ) * 100) / f32 (totalDelta c l : ℚ)),
    hus, ?_, rfl, ?_⟩
  · rw [hent i c l hc hl]
    simp [usageValue, htot]
  · exact within_four_roundings _ _ (div_nonneg (mul_nonneg (by norm_num) hb0q) htq.le) hchain

/-- Concrete instance for C3 (amended), at the example of the specification:
baseline `{user: 100, idle: 900}`, then `{user: 150, idle: 950}`, gives exactly
`50`. -/
theorem usage_is_rounded_quotient_witness :
    busyDelta (cpuOf 150 950) (cpuOf 100 900) = 50 ∧
      totalDelta (cpuOf 150 950) (cpuOf 100 900) = 100 ∧
      ∃ (us : List ℚ) (v : ℚ),
        getCPUUsage [cpuOf 100 900] [cpuOf 150 950] = some (us, [cpuOf 150 950]) ∧
        us[0]? = some v ∧ v = 50 := by
  refine ⟨by decide, by decide, ?_⟩
  obtain ⟨us, v, h1, h2, h3, _⟩ :=
    usage_is_rounded_quotient [cpuOf 100 900] [cpuOf 150 950] rfl 0 (cpuOf 150 950)
      (cpuOf 100 900) rfl rfl (by decide) (by decide)
  refine ⟨us, v, h1, h2, ?_⟩
  rw [h3]
  decide!

/-- C4: the first call (no stored baseline) returns one element per entry of the
snapshot read, each equal to `0`, whatever the counters are, and stores the
snapshot. -/
theorem first_call_all_zero (cur : List CPUData) :
    ∃ us, getCPUUsage [] cur = some (us, cur) ∧ us.length = cur.length ∧
      ∀ u ∈ us, u = 0 := by
  refine ⟨List.replicate cur.length 0, getCPUUsage_first cur, by simp, ?_⟩
  intro u hu
  exact (List.mem_replicate.mp hu).2

/-- C5, as stated, fails: with baseline `{user: 100, idle: 100}` and current
entry `{user: 50, idle: 350}` the user delta is negative, the total delta is
`200 > 0`, and the call reports `-25`, not `0`. -/
theorem negative_delta_not_zeroed :
    (cpuOf 50 350).user - (cpuOf 100 100).user < 0 ∧
      0 < totalDelta (cpuOf 50 350) (cpuOf 100 100) ∧
      getCPUUsage [cpuOf 100 100] [cpuOf 50 350] = some ([-25], [cpuOf 50 350]) ∧
      (-25 : ℚ) ≠ 0 := by
  refine ⟨by decide, by decide, by decide!, by norm_num⟩

/-- C5, amended: if some field delta of entry `i` is negative, the call reports
`0` for entry `i` when the summed total is `<= 0`; when the summed total is
positive it reports the binary32 value of `busy * 100 / total` as for any other
entry, which is `0` only if `busy = 0` and negative if `busy` is negative. -/
theorem negative_delta_usage (last cur : List CPUData) (hlen : cur.length ≤ last.length)
    (i : Nat) (c l : CPUData) (hc : cur[i]? = some c) (hl : last[i]? = some l)
    (_hneg : c.user < l.user ∨ c.nice < l.nice ∨ c.sys < l.sys ∨ c.idle < l.idle ∨
      c.iowait < l.iowait ∨ c.irq < l.irq ∨ c.softirq < l.softirq ∨ c.steal < l.steal) :
    ∃ us v, getCPUUsage last cur = some (us, cur) ∧ us[i]? = some v ∧
      (totalDelta c l ≤ 0 → v = 0) ∧
      (0 < totalDelta c l →
        v = f32 (f32 (f32 (busyDelta c l : ℚ) * 100) / f32 (totalDelta c l : ℚ))) ∧
      (0 < totalDelta c l → (v = 0 ↔ busyDelta c l = 0)) ∧
      (0 < totalDelta c l → (v < 0 ↔ busyDelta c l < 0)) := by
  have hne : last ≠ [] := by
    intro h
    subst h
    simp at hl
  obtain ⟨us, hus, _, hent⟩ := getCPUUsage_next last cur hne hlen
  refine ⟨us, usageValue c l, hus, hent i c l hc hl, ?_, ?_, ?_, ?_⟩
  · intro h
    simp [usageValue, not_lt.mpr h]
  · intro h
    simp [usageValue, h]
  · intro h
    have htq : (0 : ℚ) < (totalDelta c l : ℚ) := by exact_mod_cast h
    have hft : f32 (totalDelta c l : ℚ) ≠ 0 := ne_of_gt (f32_pos htq)
    simp only [usageValue, h, if_true, f32_eq_zero_iff, div_eq_zero_iff, hft, or_false,
      mul_eq_zero]
    constructor
    · rintro (h0 | h0)
      · exact_mod_cast h0
      · norm_num at h0
    · intro h0
      left
      exact_mod_cast h0
  · intro h
    have htq : (0 : ℚ) < (totalDelta c l : ℚ) := by exact_mod_cast h
    have hft : 0 < f32 (totalDelta c l : ℚ) := f32_pos htq
    simp only [usageValue, h, if_true]
    constructor
    · intro hv
      by_contra hb
      have hb0 : (0 : ℚ) ≤ (busyDelta c l : ℚ) := by exact_mod_cast (not_lt.mp hb)
      have : 0 ≤ f32 (f32 (f32 (busyDelta c l : ℚ) * 100) / f32 (totalDelta c l : ℚ)) :=
        f32_nonneg (div_nonneg (f32_nonneg (mul_nonneg (f32_nonneg hb0) (by norm_num)))
          hft.le)
      linarith
    · intro hb
      have hbq : (busyDelta c l : ℚ) < 0 := by exact_mod_cast hb
      have h1 : f32 (busyDelta c l : ℚ) * 100 < 0 :=
        mul_neg_of_neg_of_pos (f32_neg_of_neg hbq) (by norm_num)
      exact f32_neg_of_neg (div_neg_of_neg_of_pos (f32_neg_of_neg h1) hft)

/-- Concrete instance for C5 (amended): the user counter went back from `100` to
`50` while idle grew by `250`; the entry is reported as `-25`. -/
theorem negative_delta_usage_witness :
    ∃ (us : List ℚ) (v : ℚ),
      getCPUUsage [cpuOf 100 100] [cpuOf 50 350] = some (us, [cpuOf 50 350]) ∧
      us[0]? = some v ∧ v = -25 := by
  obtain ⟨us, v, h1, h2, _, h4, _, _⟩ :=
    negative_delta_usage [cpuOf 100 100] [cpuOf 50 350] (le_refl _) 0 (cpuOf 50 350)
      (cpuOf 100 100) rfl rfl (Or.inl (by decide))
  refine ⟨us, v, h1, h2, ?_⟩
  rw [h4 (by decide)]
  decide!

/-- C6: if the total delta of entry `i` is `<= 0`, in particular if the eight
field deltas sum to `0`, the loop body yields exactly `0` for the entry and the
call returns `0` for it.  The division of the model has no value for a zero
divisor, so a defined result means no division by zero took place. -/
theorem nonpositive_total_gives_zero (last cur : List CPUData)
    (hlen : cur.length ≤ last.length) (i : Nat) (c l : CPUData) (hc : cur[i]? = some c)
    (hl : last[i]? = some l) (htot : totalDelta c l ≤ 0) :
    entryPercent c l = some 0 ∧
      ∃ us, getCPUUsage last cur = some (us, cur) ∧ us[i]? = some 0 := by
  have hz : usageValue c l = 0 := by
    simp [usageValue, not_lt.mpr htot]
  have hne : last ≠ [] := by
    intro h
    subst h
    simp at hl
  obtain ⟨us, hus, _, hent⟩ := getCPUUsage_next last cur hne hlen
  refine ⟨by rw [entryPercent_eq, hz], us, hus, ?_⟩
  rw [hent i c l hc hl, hz]

/-- Concrete instance for C6: two identical snapshots, so all
eight deltas are `0`. -/
theorem nonpositive_total_gives_zero_witness :
    totalDelta (cpuOf 100 900) (cpuOf 100 900) = 0 ∧
      entryPercent (cpuOf 100 900) (cpuOf 100 900) = some 0 ∧
      ∃ us, getCPUUsage [cpuOf 100 900] [cpuOf 100 900] = some (us, [cpuOf 100 900]) ∧
        us[0]? = some 0 :=
  ⟨by decide,
    nonpositive_total_gives_zero [cpuOf 100 900] [cpuOf 100 900] (le_refl _) 0
      (cpuOf 100 900) (cpuOf 100 900) rfl rfl (by decide)⟩

/-- C7: after every call, first call or later, the stored baseline is the
snapshot read in that call.  Hence after any run of calls that read only
existing baseline entries the baseline is the last snapshot `sk`, and what the
next call returns on a snapshot `next` is what `getCPUUsage sk next` returns,
whatever the earlier snapshots `hist` were. -/
theorem baseline_is_last_snapshot (hist : List (List CPUData)) (sk : List CPUData)
    (h : List.Chain ReadsInBounds [] (hist ++ [sk])) :
    (∀ (last cur : List CPUData) (r : List ℚ × List CPUData),
        getCPUUsage last cur = some r → r.2 = cur) ∧
      runCalls [] (hist ++ [sk]) = some sk ∧
      ∀ next, (runCalls [] (hist ++ [sk])).bind (fun st => getCPUUsage st next)
        = getCPUUsage sk next := by
  have hrun : runCalls [] (hist ++ [sk]) = some sk := by
    rw [runCalls_chain _ _ h, List.getLastD_concat]
  refine ⟨getCPUUsage_stores, hrun, ?_⟩
  intro next
  rw [hrun]
  rfl

/-- Concrete instance for C7: a cold start on two entries, a call
on one entry, then a call on one entry. -/
theorem baseline_is_last_snapshot_witness :
    runCalls [] ([[cpuOf 1 2, cpuOf 3 4], [cpuOf 5 6]] ++ [[cpuOf 7 8]]) = some [cpuOf 7 8] ∧
      ∀ next, (runCalls [] ([[cpuOf 1 2, cpuOf 3 4], [cpuOf 5 6]] ++ [[cpuOf 7 8]])).bind
        (fun st => getCPUUsage st next) = getCPUUsage [cpuOf 7 8] next :=
  (baseline_is_last_snapshot [[cpuOf 1 2, cpuOf 3 4], [cpuOf 5 6]] [cpuOf 7 8]
    (by simp [ReadsInBounds])).2

/-! ## Claims: process ranking -/

/-- C8: for every list of records and every `n >= 0`, whatever order `std::sort`
gives to records of equal `cpu`, the selection returns a list of length
`min n count`, ordered by non-increasing `cpu`, that is the first `n` records of
a cpu-descending rearrangement of the input: every returned record is an input
record and no omitted record has a `cpu` above that of a returned one.  With
`cpu` values `[10,50,5,90,30]` and `n = 3` the returned values are `[90,50,30]`. -/
theorem selectTop_descending_prefix (sort : List ProcInfo → List ProcInfo)
    (hs : StdSortContract sort) (procs : List ProcInfo) (n : Nat) :
    ∃ r, selectTop sort procs (n : Int) = some r ∧
      r.length = min n procs.length ∧
      r.Pairwise (fun a b => a.cpu ≥ b.cpu) ∧
      (∃ full : List ProcInfo, full.Perm procs ∧
        full.Pairwise (fun a b => a.cpu ≥ b.cpu) ∧
        r = full.take n ∧ ∀ p ∈ r, ∀ q ∈ full.drop n, ¬ (q.cpu > p.cpu)) ∧
      (∀ p ∈ r, p ∈ procs) ∧
      (procs.map ProcInfo.cpu = [10, 50, 5, 90, 30] → n = 3 →
        r.map ProcInfo.cpu = [90, 50, 30]) := by
  have hperm : (sort procs).Perm procs := (hs procs).1
  have hsorted : (sort procs).Pairwise cpuGe := stdSort_sorted sort hs procs
  have hsplit : (sort procs).take n ++ (sort procs).drop n = sort procs :=
    List.take_append_drop n (sort procs)
  refine ⟨(sort procs).take n, truncateTop_nat _ n, ?_, ?_, ?_, ?_, ?_⟩
  · rw [List.length_take, hperm.length_eq]
  · exact hsorted.sublist (List.take_sublist n _)
  · refine ⟨sort procs, hperm, hsorted, rfl, ?_⟩
    intro p hp q hq
    rw [← hsplit, List.pairwise_append] at hsorted
    exact not_lt.mpr (hsorted.2.2 p hp q hq)
  · intro p hp
    exact hperm.subset (List.mem_of_mem_take hp)
  · intro hcpu hn
    subst hn
    have hp' : ((sort procs).map ProcInfo.cpu).Perm [90, 50, 30, 10, 5] := by
      refine (hperm.map ProcInfo.cpu).trans ?_
      rw [hcpu]
      decide
    have s₁ : ((sort procs).map ProcInfo.cpu).Sorted (· ≥ ·) := by
      rw [List.Sorted, List.pairwise_map]
      exact hsorted
    have s₂ : ([90, 50, 30, 10, 5] : List ℚ).Sorted (· ≥ ·) := by
      simp [List.Sorted]
      norm_num
    have heq := List.eq_of_perm_of_sorted hp' s₁ s₂
    rw [List.map_take, heq]
    rfl

/-- Concrete instance for C8: the stable descending sort on five
records with `cpu` values `[10,50,5,90,30]`, `n = 3`. -/
theorem selectTop_descending_prefix_witness :
    StdSortContract stableSortDesc ∧
      ∃ r, selectTop stableSortDesc
          [procOf 1 10, procOf 2 50, procOf 3 5, procOf 4 90, procOf 5 30] 3 = some r ∧
        r.length = 3 ∧ r.map ProcInfo.cpu = [90, 50, 30] := by
  refine ⟨stableSortDesc_contract, ?_⟩
  obtain ⟨r, h1, h2, _, _, _, h6⟩ :=
    selectTop_descending_prefix stableSortDesc stableSortDesc_contract
      [procOf 1 10, procOf 2 50, procOf 3 5, procOf 4 90, procOf 5 30] 3
  exact ⟨r, h1, h2, h6 rfl rfl⟩

/-- C9, as stated, fails with the `std::sort` of libstdc++ once there are more
than 16 records.  Seventeen processes discovered as pid 1 to 17, all without CPU
time (`cpu = 0`), leave the sort in the order 9, 17, 16, ..., 10, 1, 8, ..., 2,
and with `topN = 5` the records kept are those of pids 9, 17, 16, 15 and 14, not
those of pids 1 to 5. -/
theorem ties_not_in_discovery_order :
    gnuSort ((List.range 17).map fun i => procOf ((i : Int) + 1) 0)
        = some ([9, 17, 16, 15, 14, 13, 12, 11, 10, 1, 8, 7, 6, 5, 4, 3, 2].map
            fun pid => procOf pid 0) ∧
      getTopProcessesGnu 10 100
          (some ((List.range 17).map fun i =>
            DirEntry.proc ⟨(i : Int) + 1, ['(', 'p', ')'], 0, 0, 0, 0⟩)) 5
        = some ([9, 17, 16, 15, 14].map fun pid => procOf pid 0) := by
  refine ⟨by decide!, by decide!⟩

/-- C9, amended: whatever order `std::sort` gives to records of equal `cpu`, the
`cpu` values of the returned list are, position by position, those of the stable
descending sort cut to `n`; and when no two records have equal `cpu` the
returned list is the stable result itself.  Which of several records of equal
`cpu` stands where, and which of them are kept, is not fixed by the code. -/
theorem ties_leave_cpu_values_fixed (sort : List ProcInfo → List ProcInfo)
    (hs : StdSortContract sort) (procs : List ProcInfo) (n : Nat) :
    ∃ r, selectTop sort procs (n : Int) = some r ∧
      r.map ProcInfo.cpu = ((stableSortDesc procs).take n).map ProcInfo.cpu ∧
      (procs.Pairwise (fun a b => a.cpu ≠ b.cpu) → r = (stableSortDesc procs).take n) := by
  have hperm : (sort procs).Perm (stableSortDesc procs) :=
    (hs procs).1.trans (stableSortDesc_contract procs).1.symm
  have h₁ : (sort procs).Pairwise cpuGe := stdSort_sorted sort hs procs
  have h₂ : (stableSortDesc procs).Pairwise cpuGe :=
    stdSort_sorted stableSortDesc stableSortDesc_contract procs
  refine ⟨(sort procs).take n, truncateTop_nat _ n, ?_, ?_⟩
  · rw [List.map_take, List.map_take, sorted_cpu_unique _ _ hperm h₁ h₂]
  · intro hd
    have hd₂ : (stableSortDesc procs).Pairwise fun a b => a.cpu ≠ b.cpu :=
      ((stableSortDesc_contract procs).1.pairwise_iff (fun h => Ne.symm h)).mpr hd
    rw [sorted_unique_of_distinct _ _ hperm h₁ h₂ hd₂]

/-- Concrete instance for C9 (amended): the tie-reversing sort on records
with `cpu` values `[5, 5, 7]`, `n = 2`. -/
theorem ties_leave_cpu_values_fixed_witness :
    StdSortContract reversingSortDesc ∧
      ∃ r, selectTop reversingSortDesc [procOf 1 5, procOf 2 5, procOf 3 7] 2 = some r ∧
        r.map ProcInfo.cpu = [7, 5] := by
  refine ⟨reversingSortDesc_contract, ?_⟩
  obtain ⟨r, h1, h2, _⟩ :=
    ties_leave_cpu_values_fixed reversingSortDesc reversingSortDesc_contract
      [procOf 1 5, procOf 2 5, procOf 3 7] 2
  refine ⟨r, h1, ?_⟩
  rw [h2]
  simp [stableSortDesc, procOf, cpuGe]
  norm_num

/-- C10, as stated, fails: the value is computed in `double` and stored in a
`float`.  With uptime `3` s, `100` ticks per second, a process started at tick
`0` with `utime = 200` and `stime = 0`, the age is `3` and the record holds
`8738133 / 131072` (66.6666641), not `100 * (200 / 100) / 3`. -/
theorem cpu_percent_is_rounded :
    processAgeSeconds 3 100 ⟨7, ['(', 'a', ')'], 200, 0, 0, 5⟩ = 3 ∧
      procInfoOf 3 100 ⟨7, ['(', 'a', ')'], 200, 0, 0, 5⟩
        = some ⟨7, ['a'], 8738133 / 131072, 5⟩ ∧
      (8738133 / 131072 : ℚ) ≠ 100 * ((((200 : Int) + 0 : Int) : ℚ) / ((100 : Int) : ℚ)) / 3 := by
  refine ⟨by decide!, by decide!, by norm_num⟩

/-- C10, amended: for every process read, every uptime and every tick rate
`> 0`, with `seconds` the `double` value of `uptime - starttime / tickRate` as
line 134 computes it: the record built has `cpu = 0` when `seconds <= 0`, and
otherwise the `float` nearest to the `double` value of
`100 * ((utime + stime) / tickRate) / seconds`.  When `starttime` and the tick
rate convert to `double` without rounding and `uptime` is a `double`, an age
`uptime - starttime / tickRate <= 0` gives `cpu = 0`.  In every case the record
is appended to the list of records, between those of the entries before it and
those of the entries after it. -/
theorem cpu_percent_of_age (uptime : ℚ) (clkTck : Int) (hclk : 0 < clkTck) (s : StatRecord)
    (before after : List DirEntry) :
    ∃ p, procInfoOf uptime clkTck s = some p ∧ p.pid = s.pid ∧
      p.cpu = (if secondsOf uptime clkTck s ≤ 0 then 0
        else f32 (f64 (100 * f64 (f64 (f64 ((s.utime + s.stime : Int) : ℚ) / f64 (clkTck : ℚ))
          / secondsOf uptime clkTck s)))) ∧
      (|s.starttime| < 2 ^ 53 → clkTck < 2 ^ 53 → f64 uptime = uptime →
        processAgeSeconds uptime clkTck s ≤ 0 → p.cpu = 0) ∧
      ∃ ps₁ ps₂, collectProcs uptime clkTck before = some ps₁ ∧
        collectProcs uptime clkTck after = some ps₂ ∧
        collectProcs uptime clkTck (before ++ DirEntry.proc s :: after)
          = some (ps₁ ++ p :: ps₂) := by
  have hne : clkTck ≠ 0 := ne_of_gt hclk
  obtain ⟨ps₁, h₁⟩ := collectProcs_defined uptime clkTck hne before
  obtain ⟨ps₂, h₂⟩ := collectProcs_defined uptime clkTck hne after
  have hcpu := cpuUsageOf_eq uptime clkTck hne s
  refine ⟨{ pid := s.pid, name := stripComm s.comm, cpu := cpuValue uptime clkTck s,
            mem := s.mem_kb },
    by simp only [procInfoOf, hcpu, Option.map_some'], rfl, rfl, ?_, ps₁, ps₂, h₁, h₂, ?_⟩
  · intro hst hck hup hage
    have hclkq : (0 : ℚ) < (clkTck : ℚ) := by exact_mod_cast hclk
    have e1 : f64 (s.starttime : ℚ) = (s.starttime : ℚ) := f64_intCast _ hst
    have e2 : f64 (clkTck : ℚ) = (clkTck : ℚ) :=
      f64_intCast _ (by rw [abs_of_pos hclk]; exact hck)
    have hle : uptime ≤ (s.starttime : ℚ) / (clkTck : ℚ) := by
      unfold processAgeSeconds at hage
      linarith
    have h1 : uptime ≤ f64 ((s.starttime : ℚ) / (clkTck : ℚ)) := by
      have := f64_mono hle
      rwa [hup] at this
    have hsec : secondsOf uptime clkTck s ≤ 0 := by
      unfold secondsOf
      rw [e1, e2]
      exact f64_nonpos (by linarith)
    show cpuValue uptime clkTck s = 0
    unfold cpuValue
    rw [if_pos hsec]
  · apply collectProcs_append uptime clkTck before _ ps₁ _ h₁
    simp [collectProcs, procInfoOf, hcpu, h₂]

/-- Concrete instance for C10 (amended): uptime `100` s, `100` ticks per second,
a process started at tick `20000`, so of age `-100` s: its record has `cpu = 0`
and is in the list. -/
theorem cpu_percent_of_age_witness :
    processAgeSeconds 100 100 ⟨7, ['(', 'a', ')'], 100, 100, 20000, 5⟩ ≤ 0 ∧
      ∃ p, procInfoOf 100 100 ⟨7, ['(', 'a', ')'], 100, 100, 20000, 5⟩ = some p ∧
        p.pid = 7 ∧ p.cpu = 0 ∧
        collectProcs 100 100 ([] ++ DirEntry.proc ⟨7, ['(', 'a', ')'], 100, 100, 20000, 5⟩ :: [])
          = some [p] := by
  have hage : processAgeSeconds 100 100 ⟨7, ['(', 'a', ')'], 100, 100, 20000, 5⟩ ≤ 0 := by
    norm_num [processAgeSeconds]
  obtain ⟨p, h1, h2, _, h4, ps₁, ps₂, h5, h6, h7⟩ :=
    cpu_percent_of_age 100 100 (by decide) ⟨7, ['(', 'a', ')'], 100, 100, 20000, 5⟩ [] []
  refine ⟨hage, p, h1, h2, ?_, ?_⟩
  · exact h4 (by norm_num) (by norm_num) (by decide!) hage
  · simp only [collectProcs, Option.some.injEq] at h5 h6
    rw [h7, ← h5, ← h6]
    rfl

/-! ## Helper lemmas: memory and disk -/

theorem getMemoryUsage_eq (m : MemInfo) :
    getMemoryUsage (some m) = some
      (if m.totalMem ≤ 0 then 0
       else f32 (f32 (f32 ((m.totalMem - (m.freeMem + m.buffers + m.cached) : Int) : ℚ)
         / f32 (m.totalMem : ℚ)) * 100)) := by
  unfold getMemoryUsage
  by_cases h : m.totalMem > 0
  · have hq : (0 : ℚ) < ((m.totalMem : Int) : ℚ) := by exact_mod_cast h
    have hne : f32 ((m.totalMem : Int) : ℚ) ≠ 0 := ne_of_gt (f32_pos hq)
    simp only [gt_iff_lt, h, if_true, fdiv32, hne, if_false, Option.map_some', not_le.mpr h]
  · simp only [gt_iff_lt, h, if_false, not_lt.mp h, if_true]

/-- The unsigned 64-bit arithmetic of `getDiskUsage` when nothing wraps. -/
theorem disk_mod_arith (t f : Nat) (hf : f ≤ t) (ht : t < 2 ^ 64) :
    t % 2 ^ 64 = t ∧ f % 2 ^ 64 = f ∧ (t + 2 ^ 64 - f) % 2 ^ 64 = t - f := by
  have h1 : t % 2 ^ 64 = t := Nat.mod_eq_of_lt ht
  have h2 : f % 2 ^ 64 = f := Nat.mod_eq_of_lt (lt_of_le_of_lt hf ht)
  refine ⟨h1, h2, ?_⟩
  have h3 : t + 2 ^ 64 - f = (t - f) + 2 ^ 64 := by omega
  rw [h3, Nat.add_mod_right]
  exact Nat.mod_eq_of_lt (lt_of_le_of_lt (Nat.sub_le t f) ht)

theorem getDiskUsage_eq (st : StatVfs) (hfree : st.f_bfree ≤ st.f_blocks)
    (hfit : st.f_blocks * st.f_frsize < 2 ^ 64) :
    getDiskUsage (some st) = some
      (if st.f_blocks * st.f_frsize = 0 then 0
       else f32 (f32 (f32 ((st.f_blocks * st.f_frsize - st.f_bfree * st.f_frsize : Nat) : ℚ)
         / f32 ((st.f_blocks * st.f_frsize : Nat) : ℚ)) * 100)) := by
  have hle : st.f_bfree * st.f_frsize ≤ st.f_blocks * st.f_frsize :=
    Nat.mul_le_mul_right _ hfree
  obtain ⟨h1, h2, h3⟩ := disk_mod_arith _ _ hle hfit
  unfold getDiskUsage
  simp only [h1, h2, h3]
  by_cases h : st.f_blocks * st.f_frsize = 0
  · simp [h]
  · have hpos : st.f_blocks * st.f_frsize > 0 := Nat.pos_of_ne_zero h
    have hq : (0 : ℚ) < ((st.f_blocks * st.f_frsize : Nat) : ℚ) := by exact_mod_cast hpos
    have hne : f32 ((st.f_blocks * st.f_frsize : Nat) : ℚ) ≠ 0 := ne_of_gt (f32_pos hq)
    simp only [gt_iff_lt, hpos, if_true, fdiv32, hne, if_false, Option.map_some', h]

/-- The `float` percentage of `u` used out of `t`, for `0 <= u <= t` and
`t > 0`: it lies in `[0,100]` and is `0` only for `u = 0`. -/
theorem percent_value_range (u t : ℚ) (hu : 0 ≤ u) (hut : u ≤ t) (ht : 0 < t) :
    0 ≤ f32 (f32 (f32 u / f32 t) * 100) ∧ f32 (f32 (f32 u / f32 t) * 100) ≤ 100 ∧
      (f32 (f32 (f32 u / f32 t) * 100) = 0 ↔ u = 0) := by
  have hfu : 0 ≤ f32 u := f32_nonneg hu
  have hft : 0 < f32 t := f32_pos ht
  have hq0 : 0 ≤ f32 u / f32 t := div_nonneg hfu hft.le
  have hq1 : f32 u / f32 t ≤ 1 := by
    rw [div_le_one hft]
    exact f32_mono hut
  have hr0 : 0 ≤ f32 (f32 u / f32 t) := f32_nonneg hq0
  have hr1 : f32 (f32 u / f32 t) ≤ 1 := by
    have := f32_mono hq1
    rwa [f32_one] at this
  refine ⟨f32_nonneg (mul_nonneg hr0 (by norm_num)), ?_, ?_⟩
  · have h : f32 (f32 u / f32 t) * 100 ≤ 100 := by linarith
    have := f32_mono h
    rwa [f32_hundred] at this
  · simp only [f32_eq_zero_iff, mul_eq_zero, div_eq_zero_iff, ne_of_gt hft, or_false]
    constructor
    · rintro (h | h)
      · exact h
      · norm_num at h
    · intro h
      exact Or.inl h

/-- The `float` percentage of `u` used out of `t` is within the fraction `2^-21`
of the exact `100 * u / t`. -/
theorem percent_value_error (u t : ℚ) (hu : 0 ≤ u) (ht : 0 < t) :
    |f32 (f32 (f32 u / f32 t) * 100) - 100 * u / t| ≤ 100 * u / t / 2 ^ 21 := by
  have hfu : 0 ≤ f32 u := f32_nonneg hu
  have hft : 0 < f32 t := f32_pos ht
  have hq0 : 0 ≤ f32 u / f32 t := div_nonneg hfu hft.le
  have hr0 : 0 ≤ f32 (f32 u / f32 t) * 100 := mul_nonneg (f32_nonneg hq0) (by norm_num)
  have h4 := f32_between hr0
  have hchain := chain_quotient_product (1 - 1 / 2 ^ 24) (1 + 1 / 2 ^ 24) u t _ _ _
    (f32 (f32 (f32 u / f32 t) * 100)) (by norm_num) (by norm_num) hu ht
    (f32_between hu) (f32_between ht.le) (f32_between hq0) h4
  exact within_four_roundings _ _ (div_nonneg (mul_nonneg (by norm_num) hu) ht.le) hchain

/-! ## Claims: memory and disk -/

/-- C11, as stated, fails on its own example: line 80 rounds the quotient
`60 / 100` to `float` before it multiplies by `100`, and `total = 100`,
`free = 40`, `buffers = 0`, `cached = 0` gives `15728641 / 262144`
(60.0000038), not `60`. -/
theorem memory_example_is_not_sixty :
    getMemoryUsage (some ⟨100, 40, 0, 0⟩) = some (15728641 / 262144) ∧
      (15728641 / 262144 : ℚ) ≠ 60 := by
  refine ⟨by decide!, by norm_num⟩

/-- C11, amended: for every `MemTotal`, `MemFree`, `Buffers` and `Cached` value,
with `used = total - (free + buffers + cached)`, `getMemoryUsage` returns `0` when
`total <= 0` and otherwise the binary32 value of `used / total * 100` (the
quotient rounded, then the product), which for `used >= 0` is within the
fraction `2^-21` of the exact `100 * used / total`; `total = 0` gives `0`, and
`total = 100`, `free = 40`, `buffers = 0`, `cached = 0` gives
`15728641 / 262144` (60.0000038). -/
theorem memory_used_percent :
    (∀ m : MemInfo, ∃ r, getMemoryUsage (some m) = some r ∧
      (m.totalMem ≤ 0 → r = 0) ∧
      (0 < m.totalMem →
        r = f32 (f32 (f32 ((m.totalMem - (m.freeMem + m.buffers + m.cached) : Int) : ℚ)
          / f32 (m.totalMem : ℚ)) * 100)) ∧
      (0 < m.totalMem → 0 ≤ m.totalMem - (m.freeMem + m.buffers + m.cached) →
        |r - 100 * ((m.totalMem - (m.freeMem + m.buffers + m.cached) : Int) : ℚ)
            / (m.totalMem : ℚ)|
          ≤ 100 * ((m.totalMem - (m.freeMem + m.buffers + m.cached) : Int) : ℚ)
            / (m.totalMem : ℚ) / 2 ^ 21)) ∧
      (∀ free buffers cached : Int, getMemoryUsage (some ⟨0, free, buffers, cached⟩) = some 0) ∧
      getMemoryUsage (some ⟨100, 40, 0, 0⟩) = some (15728641 / 262144) := by
  refine ⟨fun m => ⟨_, getMemoryUsage_eq m, ?_, ?_, ?_⟩, ?_, by decide!⟩
  · intro h
    rw [if_pos h]
  · intro h
    rw [if_neg (not_le.mpr h)]
  · intro h hu
    rw [if_neg (not_le.mpr h)]
    exact percent_value_error _ _ (by exact_mod_cast hu) (by exact_mod_cast h)
  · intro free buffers cached
    rw [getMemoryUsage_eq]
    simp

/-- C12, as stated, fails: the value is a `float`.  A mount of `3` blocks of
`4096` bytes with `2` blocks free has `total = 12288`, `free = 8192`, and
`getDiskUsage` returns `4369067 / 131072` (33.3333359), not
`100 * (12288 - 8192) / 12288`. -/
theorem disk_percent_is_rounded :
    (2 : Nat) ≤ 3 ∧ 3 * 4096 < 2 ^ 64 ∧
      getDiskUsage (some ⟨3, 2, 4096⟩) = some (4369067 / 131072) ∧
      (4369067 / 131072 : ℚ) ≠ 100 * ((12288 : ℚ) - 8192) / 12288 := by
  refine ⟨by decide, by norm_num, by decide!, by norm_num⟩

/-- C12, amended: for the block counts of a mount (free blocks no more than all
blocks, a total byte count that fits 64 bits), with `total = f_blocks * f_frsize`
and `free = f_bfree * f_frsize`, `getDiskUsage` returns `0` when `total` is `0`
and otherwise the binary32 value of `(total - free) / total * 100` (the quotient
rounded, then the product), which is within the fraction `2^-21` of the exact
`100 * (total - free) / total`. -/
theorem disk_used_percent (st : StatVfs) (hfree : st.f_bfree ≤ st.f_blocks)
    (hfit : st.f_blocks * st.f_frsize < 2 ^ 64) :
    ∃ r, getDiskUsage (some st) = some r ∧
      (st.f_blocks * st.f_frsize = 0 → r = 0) ∧
      (0 < st.f_blocks * st.f_frsize →
        r = f32 (f32 (f32 ((st.f_blocks * st.f_frsize - st.f_bfree * st.f_frsize : Nat) : ℚ)
          / f32 ((st.f_blocks * st.f_frsize : Nat) : ℚ)) * 100)) ∧
      (0 < st.f_blocks * st.f_frsize →
        |r - 100 * (((st.f_blocks * st.f_frsize : Nat) : ℚ) - ((st.f_bfree * st.f_frsize : Nat) : ℚ))
            / ((st.f_blocks * st.f_frsize : Nat) : ℚ)|
          ≤ 100 * (((st.f_blocks * st.f_frsize : Nat) : ℚ) - ((st.f_bfree * st.f_frsize : Nat) : ℚ))
            / ((st.f_blocks * st.f_frsize : Nat) : ℚ) / 2 ^ 21) := by
  have hle : st.f_bfree * st.f_frsize ≤ st.f_blocks * st.f_frsize :=
    Nat.mul_le_mul_right _ hfree
  refine ⟨_, getDiskUsage_eq st hfree hfit, ?_, ?_, ?_⟩
  · intro h
    rw [if_pos h]
  · intro h
    rw [if_neg (ne_of_gt h)]
  · intro h
    rw [if_neg (ne_of_gt h), ← Nat.cast_sub hle]
    exact percent_value_error _ _ (by exact_mod_cast Nat.zero_le _) (by exact_mod_cast h)

/-- Concrete instance for C12 (amended): `total = 1000` bytes and `free = 250`
bytes give exactly `75`. -/
theorem disk_used_percent_witness :
    (250 : Nat) ≤ 1000 ∧ 1000 * 1 < 2 ^ 64 ∧
      ∃ r, getDiskUsage (some ⟨1000, 250, 1⟩) = some r ∧ r = 75 := by
  refine ⟨by decide, by norm_num, ?_⟩
  obtain ⟨r, h1, _, h3, _⟩ := disk_used_percent ⟨1000, 250, 1⟩ (by decide) (by norm_num)
  refine ⟨r, h1, ?_⟩
  rw [h3 (by norm_num)]
  decide!

/-- C19: with the products and the difference of `getDiskUsage` taken modulo
`2^64`, for every `f_blocks`, `f_bfree`, `f_frsize` with `f_bfree <= f_blocks`
and `f_blocks * f_frsize < 2^64`, the result lies in `[0,100]` and is `0` exactly
when `total = 0` or `free = total`. -/
theorem disk_percent_in_range (st : StatVfs) (hfree : st.f_bfree ≤ st.f_blocks)
    (hfit : st.f_blocks * st.f_frsize < 2 ^ 64) :
    ∃ r, getDiskUsage (some st) = some r ∧ 0 ≤ r ∧ r ≤ 100 ∧
      (r = 0 ↔ st.f_blocks * st.f_frsize = 0 ∨
        st.f_bfree * st.f_frsize = st.f_blocks * st.f_frsize) := by
  have hle : st.f_bfree * st.f_frsize ≤ st.f_blocks * st.f_frsize :=
    Nat.mul_le_mul_right _ hfree
  refine ⟨_, getDiskUsage_eq st hfree hfit, ?_⟩
  generalize st.f_blocks * st.f_frsize = t at hle
  generalize st.f_bfree * st.f_frsize = f at hle
  by_cases h : t = 0
  · simp [h]
  · have hpos : (0 : ℚ) < (t : ℚ) := by exact_mod_cast Nat.pos_of_ne_zero h
    have hu0 : (0 : ℚ) ≤ ((t - f : Nat) : ℚ) := by exact_mod_cast Nat.zero_le _
    have hut : ((t - f : Nat) : ℚ) ≤ (t : ℚ) := by exact_mod_cast Nat.sub_le t f
    obtain ⟨h0, h1, h2⟩ := percent_value_range _ _ hu0 hut hpos
    simp only [h, if_false, false_or]
    refine ⟨h0, h1, ?_⟩
    rw [h2]
    constructor
    · intro h3
      have : t - f = 0 := by exact_mod_cast h3
      omega
    · intro h3
      have : t - f = 0 := by omega
      exact_mod_cast this

/-- Concrete instance for C19: a full file system of `8` blocks of `4096`
bytes, no block free, is at `100`. -/
theorem disk_percent_in_range_witness :
    ∃ r, getDiskUsage (some ⟨8, 0, 4096⟩) = some r ∧ 0 ≤ r ∧ r ≤ 100 ∧
      (r = 0 ↔ 8 * 4096 = 0 ∨ 0 * 4096 = 8 * 4096) :=
  disk_percent_in_range ⟨8, 0, 4096⟩ (by decide) (by norm_num)

/-! ## Claims: reading processes -/

/-- C13 holds for wrapped names, for names that do not start with `(` and for
names of at most two characters, but the code never looks at the last
character: the raw name `(Web`, not enclosed in a pair, is cut to `We`. -/
theorem strip_cuts_unclosed_name :
    (∀ s : List Char, s ≠ [] → stripComm ('(' :: s ++ [')']) = s) ∧
      (∀ c : List Char, c.head? ≠ some '(' → stripComm c = c) ∧
      (∀ c : List Char, c.length ≤ 2 → stripComm c = c) ∧
      stripComm "(bash)".toList = "bash".toList ∧
      stripComm "x".toList = "x".toList ∧
      stripComm "(Web".toList = "We".toList := by
  refine ⟨?_, ?_, ?_, by decide, by decide, by decide⟩
  · intro s hs
    have hlen : 0 < s.length := List.length_pos.mpr hs
    have h2 : (('(' :: s ++ [')']).length > 2) := by
      simp only [List.cons_append, List.length_cons, List.length_append, List.length_nil]
      omega
    have h3 : ('(' :: s ++ [')']).length - 2 = s.length := by
      simp only [List.cons_append, List.length_cons, List.length_append, List.length_nil]
      omega
    unfold stripComm
    rw [if_pos ⟨h2, rfl⟩, h3]
    simp
  · intro c hc
    unfold stripComm
    rw [if_neg]
    exact fun h => hc h.2
  · intro c hc
    unfold stripComm
    rw [if_neg]
    intro h
    omega

/-- C14 fails on the code: a `stat` file that opens but holds nothing (the
process exited) leaves `utime`, `stime` and `starttime` without a value, and the
loop does not skip the process as it does for a file that cannot be opened: it
goes on to lines 133-135, which read those variables.  The same holds for a
record cut short after its fifth field. -/
theorem unparsed_stat_is_not_skipped :
    readStat 42 [] = ⟨some 42, [], none, none, none⟩ ∧
      readEntry (ProcDirEntry.opened 42 [] 0) = none ∧
      readEntry ProcDirEntry.unopened = some DirEntry.skipped ∧
      getTopProcessesRaw stableSortDesc 10 100 (some [ProcDirEntry.opened 42 [] 0]) 5 = none ∧
      readStat 42 "42 (bash) S 4 5".toList = ⟨some 42, "(bash)".toList, none, none, none⟩ ∧
      readEntry (ProcDirEntry.opened 42 "42 (bash) S 4 5".toList 0) = none := by
  refine ⟨by decide, by decide, by decide, ?_, by decide, by decide⟩
  have h : readEntries [ProcDirEntry.opened 42 [] 0] = none := by decide
  simp [getTopProcessesRaw, h]

/-- C17 fails on the code for a command name with white space.  In the record
below field `k` holds the number `k`.  With the name `bash` the code takes
`utime = 14`, `stime = 15`, `starttime = 22`; with the name `Web Content` it
takes `comm = (Web`, `utime = 12`, `stime = 13`, `starttime = 20`: the
extractions split the name at the blank and every later field is read two
places early. -/
theorem comm_with_blank_shifts_fields :
    readStat 42 "42 (bash) S 4 5 6 7 8 9 10 11 12 13 14 15 16 17 18 19 20 21 22 23".toList
        = ⟨some 42, "(bash)".toList, some 14, some 15, some 22⟩ ∧
      readStat 42
          "42 (Web Content) S 4 5 6 7 8 9 10 11 12 13 14 15 16 17 18 19 20 21 22 23".toList
        = ⟨some 42, "(Web".toList, some 12, some 13, some 20⟩ := by
  refine ⟨by decide, by decide⟩

/-! ## Claims: reading the CPU counters -/

/-- C16 fails on the code for the aggregate line.  Its label is empty, so `%*s`
skips the blanks and discards the first number: from
`cpu  100 200 300 400 500 600 700 800 900 1000` the code takes `user = 200`,
..., `steal = 900`.  A per-core line is read as the claim says, and there is one
entry per leading `cpu` line, in file order. -/
theorem aggregate_line_read_one_field_late :
    readCPUStats
        ["cpu  100 200 300 400 500 600 700 800 900 1000".toList,
         "cpu0 10 20 30 40 50 60 70 80 90 100".toList,
         "intr 5".toList,
         "cpu1 1 2 3 4 5 6 7 8 9 10".toList]
      = [⟨200, 300, 400, 500, 600, 700, 800, 900⟩, ⟨10, 20, 30, 40, 50, 60, 70, 80⟩] := by
  decide

/-! ## Helper lemmas: bars -/

theorem truncToInt_of_nonneg (q : ℚ) (hq : 0 ≤ q) : truncToInt q = ⌊q⌋ := by
  unfold truncToInt
  rw [Rat.floor_def, Int.tdiv_eq_ediv (Rat.num_nonneg.mpr hq) (Int.natCast_nonneg _)]

theorem barFilled_bounds (p : ℚ) (width : Int) (hp0 : 0 ≤ p) (hp1 : p ≤ 100)
    (hw : 0 ≤ width) (hw2 : width < 2 ^ 31) :
    0 ≤ barFilled p width ∧ barFilled p width ≤ width ∧
      barFilled p width ≤ ⌊p / 100 * (width : ℚ)⌋ + 1 ∧
      ⌊p / 100 * (width : ℚ)⌋ ≤ barFilled p width + 1 := by
  have hwq : (0 : ℚ) ≤ (width : ℚ) := by exact_mod_cast hw
  have hw2q : (width : ℚ) < 2 ^ 31 := by exact_mod_cast hw2
  have hfw : f64 (width : ℚ) = (width : ℚ) :=
    f64_intCast width (by rw [abs_of_nonneg hw]; omega)
  have hq0 : 0 ≤ p / 100 := div_nonneg hp0 (by norm_num)
  have hq1 : p / 100 ≤ 1 := by
    rw [div_le_one (by norm_num)]
    exact hp1
  have ha0 : 0 ≤ f64 (p / 100) := f64_nonneg hq0
  have ha1 : f64 (p / 100) ≤ 1 := by
    have := f64_mono hq1
    rwa [f64_one] at this
  have hprod0 : 0 ≤ f64 (p / 100) * (width : ℚ) := mul_nonneg ha0 hwq
  have hprod1 : f64 (p / 100) * (width : ℚ) ≤ (width : ℚ) := by
    calc f64 (p / 100) * (width : ℚ) ≤ 1 * (width : ℚ) := mul_le_mul_of_nonneg_right ha1 hwq
      _ = (width : ℚ) := one_mul _
  have hD0 : 0 ≤ f64 (f64 (p / 100) * (width : ℚ)) := f64_nonneg hprod0
  have hD1 : f64 (f64 (p / 100) * (width : ℚ)) ≤ (width : ℚ) := by
    have := f64_mono hprod1
    rwa [hfw] at this
  have hf : barFilled p width = ⌊f64 (f64 (p / 100) * (width : ℚ))⌋ := by
    unfold barFilled
    rw [hfw]
    exact truncToInt_of_nonneg _ hD0
  -- distance between the double product and the exact one
  have hE0 : 0 ≤ p / 100 * (width : ℚ) := mul_nonneg hq0 hwq
  have hE1 : p / 100 * (width : ℚ) ≤ (width : ℚ) := by
    calc p / 100 * (width : ℚ) ≤ 1 * (width : ℚ) := mul_le_mul_of_nonneg_right hq1 hwq
      _ = (width : ℚ) := one_mul _
  obtain ⟨a_lo, a_hi⟩ := f64_between hq0
  obtain ⟨d_lo, d_hi⟩ := f64_between hprod0
  have hprod_hi : f64 (p / 100) * (width : ℚ) ≤ p / 100 * (width : ℚ) * (1 + 1 / 2 ^ 53) := by
    have := mul_le_mul_of_nonneg_right a_hi hwq
    linarith
  have hprod_lo : p / 100 * (width : ℚ) * (1 - 1 / 2 ^ 53) ≤ f64 (p / 100) * (width : ℚ) := by
    have := mul_le_mul_of_nonneg_right a_lo hwq
    linarith
  have hD_hi : f64 (f64 (p / 100) * (width : ℚ))
      ≤ p / 100 * (width : ℚ) * (1 + 1 / 2 ^ 53) * (1 + 1 / 2 ^ 53) :=
    le_trans d_hi (mul_le_mul_of_nonneg_right hprod_hi (by norm_num))
  have hD_lo : p / 100 * (width : ℚ) * (1 - 1 / 2 ^ 53) * (1 - 1 / 2 ^ 53)
      ≤ f64 (f64 (p / 100) * (width : ℚ)) :=
    le_trans (mul_le_mul_of_nonneg_right hprod_lo (by norm_num)) d_lo
  have hup : f64 (f64 (p / 100) * (width : ℚ)) < p / 100 * (width : ℚ) + 1 := by
    have e : p / 100 * (width : ℚ) * (1 + 1 / 2 ^ 53) * (1 + 1 / 2 ^ 53)
        = p / 100 * (width : ℚ) + p / 100 * (width : ℚ) * (2 / 2 ^ 53 + 1 / 2 ^ 106) := by
      ring
    have h3 : p / 100 * (width : ℚ) * (2 / 2 ^ 53 + 1 / 2 ^ 106)
        ≤ (width : ℚ) * (2 / 2 ^ 53 + 1 / 2 ^ 106) :=
      mul_le_mul_of_nonneg_right hE1 (by norm_num)
    have h4 : (width : ℚ) * (2 / 2 ^ 53 + 1 / 2 ^ 106) < 1 := by
      have : (width : ℚ) * (2 / 2 ^ 53 + 1 / 2 ^ 106)
          ≤ 2 ^ 31 * (2 / 2 ^ 53 + 1 / 2 ^ 106) :=
        mul_le_mul_of_nonneg_right hw2q.le (by norm_num)
      have h5 : (2 : ℚ) ^ 31 * (2 / 2 ^ 53 + 1 / 2 ^ 106) < 1 := by norm_num
      linarith
    linarith
  have hdown : p / 100 * (width : ℚ) - 1 < f64 (f64 (p / 100) * (width : ℚ)) := by
    have e : p / 100 * (width : ℚ) * (1 - 1 / 2 ^ 53) * (1 - 1 / 2 ^ 53)
        = p / 100 * (width : ℚ) - p / 100 * (width : ℚ) * (2 / 2 ^ 53 - 1 / 2 ^ 106) := by
      ring
    have h3 : p / 100 * (width : ℚ) * (2 / 2 ^ 53 - 1 / 2 ^ 106)
        ≤ (width : ℚ) * (2 / 2 ^ 53 - 1 / 2 ^ 106) :=
      mul_le_mul_of_nonneg_right hE1 (by norm_num)
    have h4 : (width : ℚ) * (2 / 2 ^ 53 - 1 / 2 ^ 106) < 1 := by
      have : (width : ℚ) * (2 / 2 ^ 53 - 1 / 2 ^ 106)
          ≤ 2 ^ 31 * (2 / 2 ^ 53 - 1 / 2 ^ 106) :=
        mul_le_mul_of_nonneg_right hw2q.le (by norm_num)
      have h5 : (2 : ℚ) ^ 31 * (2 / 2 ^ 53 - 1 / 2 ^ 106) < 1 := by norm_num
      linarith
    linarith
  have fD_le := Int.floor_le (f64 (f64 (p / 100) * (width : ℚ)))
  have fD_lt := Int.lt_floor_add_one (f64 (f64 (p / 100) * (width : ℚ)))
  have fE_le := Int.floor_le (p / 100 * (width : ℚ))
  have fE_lt := Int.lt_floor_add_one (p / 100 * (width : ℚ))
  rw [hf]
  refine ⟨Int.floor_nonneg.mpr hD0, ?_, ?_, ?_⟩
  · have h1 : ((⌊f64 (f64 (p / 100) * (width : ℚ))⌋ : Int) : ℚ) ≤ (width : ℚ) :=
      le_trans fD_le hD1
    exact_mod_cast h1
  · have h1 : ((⌊f64 (f64 (p / 100) * (width : ℚ))⌋ : Int) : ℚ)
        < ((⌊p / 100 * (width : ℚ)⌋ : Int) : ℚ) + 2 := by linarith
    have h2 : ⌊f64 (f64 (p / 100) * (width : ℚ))⌋ < ⌊p / 100 * (width : ℚ)⌋ + 2 := by
      exact_mod_cast h1
    omega
  · have h1 : ((⌊p / 100 * (width : ℚ)⌋ : Int) : ℚ)
        < ((⌊f64 (f64 (p / 100) * (width : ℚ))⌋ : Int) : ℚ) + 2 := by linarith
    have h2 : ⌊p / 100 * (width : ℚ)⌋ < ⌊f64 (f64 (p / 100) * (width : ℚ))⌋ + 2 := by
      exact_mod_cast h1
    omega

/-- The two loops of `drawBar` when `0 <= filled <= width`: one cell per column,
`#` in the first `filled` columns and `-` in the others. -/
theorem gaugeCells_of_bounds (y x : Int) (p : ℚ) (label : List Char) (width : Int)
    (h0 : 0 ≤ barFilled p width) (h1 : barFilled p width ≤ width) :
    gaugeCells y x p label width =
      (List.range width.toNat).map fun i =>
        { y := y, x := x + (label.length : Int) + 1 + (i : Int),
          what := if (i : Int) < barFilled p width then Drawn.cell '#' (some (barColor p))
                  else Drawn.cell '-' none } := by
  have hsplit : width.toNat = (barFilled p width).toNat + (width - barFilled p width).toNat := by
    omega
  have hf : (((barFilled p width).toNat : Nat) : Int) = barFilled p width := Int.toNat_of_nonneg h0
  unfold gaugeCells
  rw [hsplit, List.range_add, List.map_append, List.map_map]
  show List.map _ _ ++ List.map _ _ = List.map _ _ ++ List.map _ _
  congr 1
  · apply List.map_congr_left
    intro i hi
    have hi' : (i : Int) < barFilled p width := by
      have := List.mem_range.mp hi
      omega
    simp [hi']
  · apply List.map_congr_left
    intro k _
    have hk : ¬ (((barFilled p width).toNat + k : Nat) : Int) < barFilled p width := by
      omega
    simp only [Function.comp, hk, if_false]
    congr 1
    push_cast
    rw [hf]

/-! ## Claims: bars -/

/-- C15: the colour pair `drawBar` switches on depends on the percentage alone:
pair 1 for `percent < 50`, pair 2 for `50 <= percent < 80`, pair 3 for
`percent >= 80`; every coloured cell of the bar, whatever the position, label
and width, is drawn in that pair. -/
theorem color_band_of_percent (p : ℚ) :
    (p < 50 → barColor p = 1) ∧ (50 ≤ p → p < 80 → barColor p = 2) ∧
      (80 ≤ p → barColor p = 3) ∧
      ∀ (y x : Int) (label : List Char) (width : Int) (cmd : DrawCmd) (c : Char) (k : Nat),
        cmd ∈ drawBar y x p label width → cmd.what = Drawn.cell c (some k) → k = barColor p := by
  refine ⟨?_, ?_, ?_, ?_⟩
  · intro h
    simp [barColor, h]
  · intro h1 h2
    simp [barColor, not_lt.mpr h1, h2]
  · intro h
    have h1 : ¬ p < 50 := not_lt.mpr (le_trans (by norm_num) h)
    simp [barColor, h1, not_lt.mpr h]
  · intro y x label width cmd c k hmem hwhat
    simp only [drawBar, gaugeCells, List.mem_append, List.mem_singleton, List.mem_map,
      List.mem_range] at hmem
    rcases hmem with (h | h | h) | h
    · rw [h] at hwhat
      simp at hwhat
    · obtain ⟨i, _, hi⟩ := h
      rw [← hi] at hwhat
      simp only [Drawn.cell.injEq, Option.some.injEq] at hwhat
      exact hwhat.2.symm
    · obtain ⟨i, _, hi⟩ := h
      rw [← hi] at hwhat
      simp at hwhat
    · rw [h] at hwhat
      simp at hwhat

/-- C18, as stated, fails: nothing keeps `filled` between `0` and `width`.  With
`percent = 200`, a label of one character at column `0` and `width = 4` the bar
has `8` cells, at columns `2` to `9`, past the column `8` where the percentage
is written; with `percent = -50` it has `6` cells, from column `0`, the column
of the label.  And the number of filled cells is the truncated `double` product,
not the floor of the exact one: `percent = 58` and `width = 50` give `28`
filled cells, where `floor(58 / 100 * 50) = 29`. -/
theorem gauge_leaves_its_width :
    barFilled 200 4 = 8 ∧
      (gaugeCells 0 0 200 ['L'] 4).map DrawCmd.x = [2, 3, 4, 5, 6, 7, 8, 9] ∧
      barFilled (-50) 4 = -2 ∧
      (gaugeCells 0 0 (-50) ['L'] 4).map DrawCmd.x = [0, 1, 2, 3, 4, 5] ∧
      barFilled 58 50 = 28 ∧ ⌊(58 : ℚ) / 100 * ((50 : Int) : ℚ)⌋ = 29 := by
  refine ⟨by decide!, by decide!, by decide!, by decide!, by decide!, by decide!⟩

/-- C18, amended: for every percentage in `[0,100]` and every width `>= 0` (an
`int`), `drawBar` draws exactly `width` gauge cells, one at each of the columns
`x + len(label) + 1 .. x + len(label) + width`, the first `filled` of them
filled (`#`) and the others unfilled (`-`), where `filled` is the `double`
product `(percent / 100.0) * width` truncated: it lies between `0` and `width`
and differs from `floor(percent / 100 * width)` by at most one.  The label
before and the percentage after are not touched. -/
theorem gauge_fills_width (y x : Int) (p : ℚ) (label : List Char) (width : Int)
    (hp0 : 0 ≤ p) (hp1 : p ≤ 100) (hw : 0 ≤ width) (hw2 : width < 2 ^ 31) :
    gaugeCells y x p label width =
        (List.range width.toNat).map (fun i =>
          { y := y, x := x + (label.length : Int) + 1 + (i : Int),
            what := if (i : Int) < barFilled p width
                    then Drawn.cell '#' (some (barColor p)) else Drawn.cell '-' none }) ∧
      0 ≤ barFilled p width ∧ barFilled p width ≤ width ∧
      barFilled p width ≤ ⌊p / 100 * (width : ℚ)⌋ + 1 ∧
      ⌊p / 100 * (width : ℚ)⌋ ≤ barFilled p width + 1 ∧
      (gaugeCells y x p label width).length = width.toNat ∧
      (∀ c ∈ gaugeCells y x p label width,
        x + (label.length : Int) + 1 ≤ c.x ∧ c.x ≤ x + (label.length : Int) + width) ∧
      drawBar y x p label width =
        [{ y := y, x := x, what := Drawn.label label }] ++ gaugeCells y x p label width ++
        [{ y := y, x := x + (label.length : Int) + 1 + width + 2, what := Drawn.percent p }] := by
  obtain ⟨h0, h1, h2, h3⟩ := barFilled_bounds p width hp0 hp1 hw hw2
  have hcells := gaugeCells_of_bounds y x p label width h0 h1
  refine ⟨hcells, h0, h1, h2, h3, ?_, ?_, rfl⟩
  · rw [hcells, List.length_map, List.length_range]
  · intro c hc
    rw [hcells, List.mem_map] at hc
    obtain ⟨i, hi, hci⟩ := hc
    have hi' := List.mem_range.mp hi
    rw [← hci]
    constructor
    · show x + (label.length : Int) + 1 ≤ x + (label.length : Int) + 1 + (i : Int)
      omega
    · show x + (label.length : Int) + 1 + (i : Int) ≤ x + (label.length : Int) + width
      omega

/-- Concrete instance for C18 (amended): `percent = 50`, a label of one
character at column `0`, `width = 4`: four cells at columns `2` to `5`, two of
them filled. -/
theorem gauge_fills_width_witness :
    (0 : ℚ) ≤ 50 ∧ (50 : ℚ) ≤ 100 ∧ (0 : Int) ≤ 4 ∧ (4 : Int) < 2 ^ 31 ∧
      barFilled 50 4 = 2 ∧
      (gaugeCells 0 0 50 ['L'] 4).length = (4 : Int).toNat ∧
      ∀ c ∈ gaugeCells 0 0 50 ['L'] 4,
        0 + ((['L'].length : Nat) : Int) + 1 ≤ c.x ∧ c.x ≤ 0 + ((['L'].length : Nat) : Int) + 4 := by
  have h := gauge_fills_width 0 0 50 ['L'] 4 (by norm_num) (by norm_num) (by decide)
    (by decide)
  exact ⟨by norm_num, by norm_num, by decide, by decide, by decide!, h.2.2.2.2.2.1,
    h.2.2.2.2.2.2.1⟩
end MiniHtop
